import Mathlib

/-!
Shallow embedding of the Sudoku solver core (`src/project2/sudoku.py` and
`src/project2/dfs.py`) and proofs about its specified properties.

A board of subgrid side `n` has `size = n * n` rows and columns.  The Python
class `SudokuBoard` stores the grid in a numpy array `self._board` indexed
`self._board[x][y]`; we model the grid as a total function `Nat → Nat → Nat`
(cells outside `[0, size) × [0, size)` are never read by the modelled code).
-/

namespace SudokuSpec

/-- EMPTY_SPACE = 0 in sudoku.py. -/
def EMPTY_SPACE : Nat := 0

/-- The grid of a SudokuBoard: cell (x, y) holds `b x y`. -/
abbrev Board := Nat → Nat → Nat

/-- A move is a tuple (x, y, value), as in sudoku.py. -/
abbrev Move := Nat × Nat × Nat

/-- self.size = n * n (the board side), where n = size_sqrt. -/
def size (n : Nat) : Nat := n * n

/-- Build a concrete board from a list of rows (used for concrete instances);
cells outside the given lists read as 0. -/
def boardOfLists (rows : List (List Nat)) : Board :=
  fun x y => ((rows.getD x []).getD y 0)

/-- Row x of the board, as the list `[b x 0, ..., b x (size-1)]`. -/
def rowList (n : Nat) (b : Board) (x : Nat) : List Nat :=
  (List.range (size n)).map (fun y => b x y)

/-- Column y of the board (a row of `self._board.T`). -/
def colList (n : Nat) (b : Board) (y : Nat) : List Nat :=
  (List.range (size n)).map (fun x => b x y)

/-- The values of the n × n subgrid whose top-left corner is (i, j):
the slice `self._board[i:i+n, j:j+n]` flattened row-major. -/
def subgridList (n : Nat) (b : Board) (i j : Nat) : List Nat :=
  (List.range n).flatMap (fun di => (List.range n).map (fun dj => b (i + di) (j + dj)))

/-- The check `len(np.unique(l[l!=0])) == len(np.nonzero(l)[0])` applied to a
group of cell values: the number of distinct nonzero values equals the number
of nonzero entries, i.e. no nonzero value repeats. -/
def nodupCheck (l : List Nat) : Bool :=
  (l.filter (fun v => v != 0)).dedup.length == (l.filter (fun v => v != 0)).length

/-- SudokuBoard.is_legal_state: every row, every column and every subgrid has
pairwise distinct nonzero values.  Subgrids are scanned at top-left corners
(i, j) with i, j ∈ {0, n, 2n, ...} as in the source loop
`for i in range(0, self.size, self.size_sqrt)`. -/
def is_legal_state (n : Nat) (b : Board) : Bool :=
  ((List.range (size n)).all (fun x => nodupCheck (rowList n b x))) &&
  ((List.range (size n)).all (fun y => nodupCheck (colList n b y))) &&
  ((List.range n).all (fun p => (List.range n).all (fun q =>
      nodupCheck (subgridList n b (n * p) (n * q)))))

/-- The assignment `self._board[x][y] = v`. -/
def set_cell (b : Board) (x y v : Nat) : Board :=
  fun i j => if i = x ∧ j = y then v else b i j

/-- Grid effect of SudokuBoard.apply_move: `self._board[x][y] = val`.
No check is performed on the previous content of the cell. -/
def apply_move (b : Board) (m : Move) : Board :=
  set_cell b m.1 m.2.1 m.2.2

/-- Grid effect of SudokuBoard.undo_move: `self._board[x][y] = EMPTY_SPACE`. -/
def undo_move (b : Board) (m : Move) : Board :=
  set_cell b m.1 m.2.1 EMPTY_SPACE

/-- Errors raised by the modelled SudokuBoard methods. -/
inductive BoardError
  | invalidIndex
  | inconsistentCompleteState
deriving DecidableEq

/-- SudokuBoard.is_complete: returns False as soon as some cell is
EMPTY_SPACE; otherwise returns True if the board is legal and raises
`Exception("Board complete but no in legal state.")` if not. -/
def is_complete (n : Nat) (b : Board) : Except BoardError Bool :=
  if (List.range (size n)).all (fun x => (List.range (size n)).all (fun y =>
      b x y != EMPTY_SPACE)) then
    if is_legal_state n b then .ok true
    else .error .inconsistentCompleteState
  else .ok false

/-- SudokuBoard.get_row: raises `Exception("Invalid row: ...")` when the index
is negative or at least `self.size`; otherwise returns
`[self._board[x][row] for x in range(self.size)]` (note that the source
indexes the grid with the argument as the SECOND coordinate).  The argument is
modelled as an Int; the `isinstance(row, int)` guard of the source is a typing
condition outside this embedding. -/
def get_row (n : Nat) (b : Board) (row : Int) : Except BoardError (List Nat) :=
  if row < 0 ∨ (size n : Int) ≤ row then .error .invalidIndex
  else .ok ((List.range (size n)).map (fun x => b x row.toNat))

/-- The raw cell data of the numpy array `self._board.data.tobytes()`,
row-major. -/
def serialize (n : Nat) (b : Board) : List Nat :=
  (List.range (size n)).flatMap (fun x => (List.range (size n)).map (fun y => b x y))

/-- Modelled from the spec: `hashlib.md5` is an external library whose
internals are outside the repository; the spec describes the fingerprint as a
cryptographic digest of the raw cell data reduced to a fixed-width integer.
Modelled as a deterministic digest of the serialized cells reduced
mod 10 ^ 16 (the reduction `int(hash_value, 16) % 10 ** 16` is from the
source). -/
def md5_digest (l : List Nat) : Nat :=
  (l.foldl (fun h v => h * 1000003 + v + 1) 5381) % 10 ^ 16

/-- SudokuBoard.__hash__: the fingerprint used for equality and for the
visited set of the search drivers. -/
def fingerprint (n : Nat) (b : Board) : Nat :=
  md5_digest (serialize n b)

/-- The Version enum of sudoku.py selecting the move-generation strategy. -/
inductive Version
  | NAIVE
  | IMPROVED
  | SORTED
  | STORE_LEGAL
deriving DecidableEq

/-- The set `allowed_values = set([i for i in range(1, self.size+1)])`. -/
def allowed_values (n : Nat) : Finset Nat := Finset.Icc 1 (size n)

/-- SudokuBoard.get_subgrid_index: `int(x // size_sqrt) * size_sqrt + int(y // size_sqrt)`. -/
def get_subgrid_index (n : Nat) (x y : Nat) : Nat :=
  (x / n) * n + (y / n)

/-- Entry k of the list `subgrids = [allowed_values.difference(set(subgrid))
for subgrid in self.sub_grids]`: the source builds the list of subgrids
row-major over top-left corners, so entry k is the block with corner
(n * (k / n), n * (k % n)).  The list is only ever indexed with
get_subgrid_index. -/
def subgrid_missing_at (n : Nat) (b : Board) (k : Nat) : Finset Nat :=
  allowed_values n \ (subgridList n b (n * (k / n)) (n * (k % n))).toFinset

/-- The set `rows[x] = allowed_values.difference(set(row))` for row x. -/
def row_missing (n : Nat) (b : Board) (x : Nat) : Finset Nat :=
  allowed_values n \ (rowList n b x).toFinset

/-- The set `cols[y] = allowed_values.difference(set(col))` for column y. -/
def col_missing (n : Nat) (b : Board) (y : Nat) : Finset Nat :=
  allowed_values n \ (colList n b y).toFinset

/-- The intersection `rows[x].intersection(cols[y]).intersection(subgrid)`
computed by improved_get_legal_moves and get_move_cache for the cell (x, y). -/
def possible_values (n : Nat) (b : Board) (x y : Nat) : Finset Nat :=
  (row_missing n b x ∩ col_missing n b y) ∩ subgrid_missing_at n b (get_subgrid_index n x y)

/-- The empty cells of the board in the row-major order in which the source
loops `for x in range(self.size): for y in range(self.size)` visit them. -/
def empty_cells (n : Nat) (b : Board) : List (Nat × Nat) :=
  (List.range (size n)).flatMap (fun x =>
    ((List.range (size n)).filter (fun y => b x y == EMPTY_SPACE)).map (fun y => (x, y)))

/-- The legal values which naive_get_legal_moves finds for the empty cell
(x, y): each i in 1..size is written into the cell and kept when
`self.is_legal_state()` still holds. -/
def naive_cell_values (n : Nat) (b : Board) (x y : Nat) : List Nat :=
  (List.range' 1 (size n)).filter (fun i => is_legal_state n (set_cell b x y i))

/-- The moves which naive_get_legal_moves accumulates, grouped by the empty
cell they fill, in the row-major order of the enclosing loops. -/
def naive_groups (n : Nat) (b : Board) : List (List Move) :=
  (empty_cells n b).map (fun c =>
    (naive_cell_values n b c.1 c.2).map (fun i => (c.1, c.2, i)))

/-- SudokuBoard.naive_get_legal_moves.  The source accumulates the moves for
the empty cells row-major, records in `fields` which empty cells produced at
least one legal value, and returns `[]` unless `len(fields) == empty_fields`,
i.e. unless every empty cell produced a legal value. -/
def naive_get_legal_moves (n : Nat) (b : Board) : List Move :=
  if (naive_groups n b).all (fun g => !g.isEmpty) then (naive_groups n b).flatten
  else []

/-- Iteration over a Python set of candidate values (all in 1..size),
modelled in ascending order. -/
def set_iter (n : Nat) (s : Finset Nat) : List Nat :=
  (List.range' 1 (size n)).filter (fun v => v ∈ s)

/-- The per-cell move lists of improved_get_legal_moves: the dict
`legal_moves` maps each empty cell, in row-major insertion order, to its list
`[(x, y, i) for i in possible_values]`. -/
def improved_groups (n : Nat) (b : Board) : List (List Move) :=
  (empty_cells n b).map (fun c =>
    (set_iter n (possible_values n b c.1 c.2)).map (fun i => (c.1, c.2, i)))

/-- SudokuBoard.improved_get_legal_moves.  The source returns `[]` from
inside the loop as soon as some empty cell has an empty `possible_values`
intersection (the dict built so far is discarded, so this equals checking all
empty cells up front).  For Version.SORTED the group lists are sorted by
`sorted(legal_moves.values(), reverse=True, key=len)`, a stable sort by
descending length (insertionSort is a stable sort, so it computes the same
list as the stable sort of the source). -/
def improved_get_legal_moves (n : Nat) (b : Board) (version : Version) : List Move :=
  if (empty_cells n b).all (fun c => (possible_values n b c.1 c.2).card != 0) then
    if version = Version.SORTED then
      ((improved_groups n b).insertionSort (fun g1 g2 => g2.length ≤ g1.length)).flatten
    else
      (improved_groups n b).flatten
  else []

/-- SudokuBoard.get_move_cache with `field=None`: the dict mapping each empty
cell, in row-major insertion order, to its `possible_values` set. -/
def get_move_cache (n : Nat) (b : Board) : List ((Nat × Nat) × Finset Nat) :=
  (empty_cells n b).map (fun c => (c, possible_values n b c.1 c.2))

/-- The loop of cache_get_legal_moves over the sorted cache items: on the
first item with an empty candidate set the whole call returns `[]` (modelled
by `none`, which discards the moves accumulated so far); otherwise every
candidate of every item is emitted as a move. -/
def cache_flatten (n : Nat) : List ((Nat × Nat) × Finset Nat) → Option (List Move)
  | [] => some []
  | (c, s) :: rest =>
    if s.card = 0 then none
    else (cache_flatten n rest).map (fun ms =>
      ((set_iter n s).map (fun v => (c.1, c.2, v))) ++ ms)

/-- SudokuBoard.cache_get_legal_moves on a board that does not yet carry a
`_move_cache`: the cache is built by get_move_cache and its items are
traversed in the order `sorted(self._move_cache.items(), reverse=True,
key=lambda item: len(item[1]))`, a stable sort by descending candidate-set
size. -/
def cache_get_legal_moves (n : Nat) (b : Board) : List Move :=
  (cache_flatten n
    ((get_move_cache n b).insertionSort (fun e1 e2 => e2.2.card ≤ e1.2.card))).getD []

/-- SudokuBoard.get_legal_moves: dispatch on the Version value. -/
def get_legal_moves (n : Nat) (b : Board) (version : Version) : List Move :=
  match version with
  | .NAIVE => naive_get_legal_moves n b
  | .STORE_LEGAL => cache_get_legal_moves n b
  | v => improved_get_legal_moves n b v

/-- The dict `self._move_cache`, as its association list of (cell, candidate
set) items in insertion order. -/
abbrev Cache := List ((Nat × Nat) × Finset Nat)

/-- Dict lookup in the move cache. -/
def cache_lookup (c : Cache) (k : Nat × Nat) : Option (Finset Nat) :=
  (c.find? (fun e => e.1 = k)).map (fun e => e.2)

/-- The deletion `del self._move_cache[(x,y)]`.  In Python a missing key
raises KeyError; the theorems below only use this under an invariant that
guarantees the key is present, where the filter is exact. -/
def cache_del (c : Cache) (k : Nat × Nat) : Cache :=
  c.filter (fun e => e.1 != k)

/-- The dict assignment `self._move_cache[k] = s`: replace the value if the
key is present, append the item otherwise. -/
def cache_set (c : Cache) (k : Nat × Nat) (s : Finset Nat) : Cache :=
  if (c.find? (fun e => e.1 = k)).isSome then
    c.map (fun e => if e.1 = k then (k, s) else e)
  else c ++ [(k, s)]

/-- The coordinates of the row through (x, y). -/
def row_group (n : Nat) (x : Nat) : List (Nat × Nat) :=
  (List.range (size n)).map (fun j => (x, j))

/-- The coordinates of the column through (x, y). -/
def col_group (n : Nat) (y : Nat) : List (Nat × Nat) :=
  (List.range (size n)).map (fun j => (j, y))

/-- The coordinates of the subgrid containing (x, y), built from the corner
`(x - x % n, y - y % n)` as in the source. -/
def subgrid_group (n : Nat) (x y : Nat) : List (Nat × Nat) :=
  (List.range n).flatMap (fun i => (List.range n).map (fun j =>
    (x - x % n + i, y - y % n + j)))

/-- SudokuBoard.get_affected_coordinates: the three groups (row, column,
subgrid) of coordinates containing (x, y).  The source returns Python sets;
they are modelled as duplicate-free lists (the loop over a group performs one
independent update per member, so the iteration order is irrelevant). -/
def get_affected_coordinates (n : Nat) (x y : Nat) : List (List (Nat × Nat)) :=
  [row_group n x, col_group n y, subgrid_group n x y]

/-- Removal of the applied value from the candidate set of one cache entry,
when the entry belongs to the updated group (`if val in set: remove`). -/
def erase_entry (group : List (Nat × Nat)) (val : Nat)
    (e : (Nat × Nat) × Finset Nat) : (Nat × Nat) × Finset Nat :=
  if e.1 ∈ group then (e.1, e.2.erase val) else e

/-- One group iteration of update_move_cache: every cached field of the group
has the applied value removed from its candidate set; `fields` counts the
cached fields of the group and `remaining` is the union of their candidate
sets after removal; if the union is smaller than the count, the sentinel
entry `self._move_cache[(0,0)] = set()` is written.  Returns the new cache
and whether the sentinel fired. -/
def update_group (c : Cache) (group : List (Nat × Nat)) (val : Nat) :
    Cache × Bool :=
  let c1 : Cache := c.map (erase_entry group val)
  let fields := (group.filter (fun f => (cache_lookup c1 f).isSome)).length
  let remaining := group.foldl (fun acc f => acc ∪ ((cache_lookup c1 f).getD ∅)) ∅
  if remaining.card < fields then (cache_set c1 (0, 0) ∅, true) else (c1, false)

/-- SudokuBoard.update_move_cache, instrumented with a flag recording whether
any of the three group iterations wrote the dead-end sentinel. -/
def update_move_cache_flag (n : Nat) (c : Cache) (m : Move) : Cache × Bool :=
  (get_affected_coordinates n m.1 m.2.1).foldl
    (fun acc g =>
      let r := update_group acc.1 g m.2.2
      (r.1, acc.2 || r.2))
    (c, false)

/-- SudokuBoard.update_move_cache. -/
def update_move_cache (n : Nat) (c : Cache) (m : Move) : Cache :=
  (update_move_cache_flag n c m).1

/-- A SudokuBoard together with its optional `_move_cache` attribute
(`hasattr(self, "_move_cache")` is modelled by the Option). -/
structure CBoard where
  board : Board
  cache : Option Cache

/-- SudokuBoard.apply_move: write the value into the grid; if a move cache
exists, delete the entry of the moved cell and run update_move_cache. -/
def apply_move_c (n : Nat) (cb : CBoard) (m : Move) : CBoard :=
  let b := apply_move cb.board m
  match cb.cache with
  | none => ⟨b, none⟩
  | some c => ⟨b, some (update_move_cache n (cache_del c (m.1, m.2.1)) m)⟩

/-- SudokuBoard.undo_move: clear the cell; if a move cache exists, rebuild it
from scratch with get_move_cache on the cleared board. -/
def undo_move_c (n : Nat) (cb : CBoard) (m : Move) : CBoard :=
  let b := undo_move cb.board m
  match cb.cache with
  | none => ⟨b, none⟩
  | some _ => ⟨b, some (get_move_cache n b)⟩

/-- An operation of an apply/undo interleaving: `(true, m)` is apply_move m,
`(false, m)` is undo_move m. -/
def do_op (n : Nat) (cb : CBoard) (op : Bool × Move) : CBoard :=
  if op.1 then apply_move_c n cb op.2 else undo_move_c n cb op.2

/-- Run an interleaving of apply_move and undo_move operations. -/
def run_ops (n : Nat) (cb : CBoard) (ops : List (Bool × Move)) : CBoard :=
  ops.foldl (do_op n) cb

/-!
The search drivers of `src/project2/dfs.py`.

The dict `self.visited_states` is keyed by boards whose `__hash__` and
`__eq__` are both the content fingerprint, so membership is fingerprint
membership and the dict is modelled as the list of inserted fingerprints.
`deepcopy` is the identity on the pure board values of this embedding.  The
wall-clock fields and the floating-point running branching-factor average of
`reset_stats` are not modelled (they never influence control flow); the
counters that the claims mention are.  Recursion and the unbounded
`while True` loop are modelled with explicit fuel.
-/

/-- The mutable state of SudokuDFS.solve: the LIFO queue (head = top), the
fingerprints of expanded states, and the statistics counters touched by the
loop.  `revistited_states` keeps the source spelling. -/
structure SolveState where
  stack : List Board
  visited : List Nat
  node_expansions : Nat
  revistited_states : Nat
  branches : Nat

/-- Outcome of running SudokuDFS.solve: a returned complete board, the
`queue.Empty` exception that `queue.get(False)` raises on an empty stack
(uncaught in the source), the exception raised by is_complete on a complete
illegal board, or fuel exhaustion of the model. -/
inductive SolveResult
  | solved (b : Board)
  | queueEmptyError
  | inconsistentError
  | outOfFuel

/-- The loop of SudokuDFS.solve.  Returns the outcome, the trace of popped
states (tagged true when the pop was skipped because its fingerprint was
already expanded), and the final driver state.  On expansion the legal moves
of the selected version are each applied to a copy of the state and pushed,
so the stack top receives the last move first. -/
def solve_run (n : Nat) (version : Version) :
    Nat → SolveState → SolveResult × List (Board × Bool) × SolveState
  | 0, st => (.outOfFuel, [], st)
  | fuel + 1, st =>
    match st.stack with
    | [] => (.queueEmptyError, [], st)
    | state :: rest =>
      if fingerprint n state ∈ st.visited then
        let r := solve_run n version fuel { st with stack := rest }
        (r.1, (state, true) :: r.2.1, r.2.2)
      else
        let st1 : SolveState :=
          { st with stack := rest,
                    visited := fingerprint n state :: st.visited,
                    node_expansions := st.node_expansions + 1 }
        match is_complete n state with
        | .error _ => (.inconsistentError, [(state, false)], st1)
        | .ok true => (.solved state, [(state, false)], st1)
        | .ok false =>
          let moves := get_legal_moves n state version
          let st2 : SolveState :=
            { st1 with stack := (moves.map (fun m => apply_move state m)).reverse ++ rest,
                       branches := st1.branches + moves.length }
          let r := solve_run n version fuel st2
          (r.1, (state, false) :: r.2.1, r.2.2)

/-- SudokuDFS.solve: reset the statistics and run the loop on a stack seeded
with (a deep copy of) the initial board. -/
def solve (n : Nat) (version : Version) (fuel : Nat) (b : Board) :
    SolveResult × List (Board × Bool) × SolveState :=
  solve_run n version fuel ⟨[b], [], 0, 0, 0⟩

/-- Exceptional outcomes of SudokuDFS.solve_recursive. -/
inductive RecError
  | inconsistentError
  | outOfFuel
deriving DecidableEq

/-- Result of a call to SudokuDFS.solve_recursive: the returned value, the
shared mutable board as the call leaves it, the visited fingerprints, and
the trace of boards on which solve_recursive was entered. -/
structure RecOut where
  result : Option Board
  board : Board
  visited : List Nat
  trace : List Board

/-- The `for move in legal_moves` loop of solve_recursive: apply the move to
the shared board, recurse, return the board if it is now complete, otherwise
undo the move and return the recursive result if it is not None, else try
the next move. -/
def rec_loop (n : Nat) (go : Board → List Nat → Except RecError RecOut) :
    List Move → Board → List Nat → Except RecError RecOut
  | [], state, visited => .ok ⟨none, state, visited, []⟩
  | m :: ms, state, visited =>
    match go (apply_move state m) visited with
    | .error e => .error e
    | .ok r1 =>
      match is_complete n r1.board with
      | .error _ => .error .inconsistentError
      | .ok true => .ok ⟨some r1.board, r1.board, r1.visited, r1.trace⟩
      | .ok false =>
        let b2 := undo_move r1.board m
        match r1.result with
        | some r => .ok ⟨some r, b2, r1.visited, r1.trace⟩
        | none =>
          match rec_loop n go ms b2 r1.visited with
          | .error e => .error e
          | .ok r2 => .ok ⟨r2.result, r2.board, r2.visited, r1.trace ++ r2.trace⟩

/-- SudokuDFS.solve_recursive: return None when the fingerprint was already
visited, mark visited, return the board when complete, otherwise loop over
the legal moves of the selected version. -/
def solve_recursive (n : Nat) (version : Version) :
    Nat → Board → List Nat → Except RecError RecOut
  | 0, _, _ => .error .outOfFuel
  | fuel + 1, state, visited =>
    if fingerprint n state ∈ visited then .ok ⟨none, state, visited, [state]⟩
    else
      let visited1 := fingerprint n state :: visited
      match is_complete n state with
      | .error _ => .error .inconsistentError
      | .ok true => .ok ⟨some state, state, visited1, [state]⟩
      | .ok false =>
        match rec_loop n (solve_recursive n version fuel)
            (get_legal_moves n state version) state visited1 with
        | .error e => .error e
        | .ok r => .ok ⟨r.result, r.board, r.visited, state :: r.trace⟩

/-- The move list is a concatenation of per-cell groups: each group holds the
moves of one empty cell, one move per candidate of that cell, and the groups
appear in weakly decreasing order of candidate-set size. -/
def GroupedByCellDesc (n : Nat) (b : Board) (res : List Move) : Prop :=
  ∃ gs : List (List Move),
    res = gs.flatten ∧
    (∀ g ∈ gs, ∃ x y, x < size n ∧ y < size n ∧ b x y = EMPTY_SPACE ∧
      g.length = (possible_values n b x y).card ∧
      ∀ mv ∈ g, mv.1 = x ∧ mv.2.1 = y) ∧
    List.Pairwise (fun g1 g2 => g2.length ≤ g1.length) gs

instance : IsTotal (List Move) (fun g1 g2 => g2.length ≤ g1.length) :=
  ⟨fun a b => le_total b.length a.length⟩

instance : IsTrans (List Move) (fun g1 g2 => g2.length ≤ g1.length) :=
  ⟨fun _ _ _ h1 h2 => le_trans h2 h1⟩

instance : IsTotal ((Nat × Nat) × Finset Nat) (fun e1 e2 => e2.2.card ≤ e1.2.card) :=
  ⟨fun a b => le_total b.2.card a.2.card⟩

instance : IsTrans ((Nat × Nat) × Finset Nat) (fun e1 e2 => e2.2.card ≤ e1.2.card) :=
  ⟨fun _ _ _ h1 h2 => le_trans h2 h1⟩

/-- The incremental cache agrees with a from-scratch rebuild: every in-range
empty cell is mapped to its possible_values set and every in-range filled
cell is absent. -/
def cache_matches (n : Nat) (b : Board) (c : Cache) : Prop :=
  ∀ x y, x < size n → y < size n →
    cache_lookup c (x, y)
      = if b x y = EMPTY_SPACE then some (possible_values n b x y) else none

/-- Preconditions along an interleaving of apply/undo operations: every
applied move writes a nonzero value into an in-range empty cell, and its
incremental cache update does not fire the dead-end sentinel.  Undo
operations need no precondition (they rebuild the cache from scratch). -/
def ValidOps (n : Nat) : CBoard → List (Bool × Move) → Prop
  | _, [] => True
  | cb, op :: rest =>
    (op.1 = true →
      op.2.1 < size n ∧ op.2.2.1 < size n ∧
      cb.board op.2.1 op.2.2.1 = EMPTY_SPACE ∧ op.2.2.2 ≠ 0 ∧
      (update_move_cache_flag n
        (cache_del (cb.cache.getD []) (op.2.1, op.2.2.1)) op.2).2 = false) ∧
    ValidOps n (do_op n cb op) rest

/-!
Concrete boards used to instantiate the theorems.
-/

/-- A legal, solvable 4 × 4 board (n = 2) with five empty cells. -/
def legalBoard4 : Board :=
  boardOfLists [[0, 0, 3, 4], [3, 4, 1, 2], [4, 3, 2, 1], [1, 0, 0, 0]]

/-- An illegal 4 × 4 board: row 0 repeats the value 1. -/
def illegalBoard4 : Board :=
  boardOfLists [[1, 1, 0, 0], [0, 0, 0, 0], [0, 0, 0, 0], [0, 0, 0, 0]]

/-- A 4 × 4 board on which applying the move (3, 1, 3) makes update_move_cache
write its dead-end sentinel into the cache entry of cell (0, 0). -/
def sentinelBoard4 : Board :=
  boardOfLists [[0, 0, 1, 2], [0, 0, 0, 0], [0, 0, 2, 0], [1, 0, 0, 0]]

/-- A legal but unsolvable 4 × 4 board: no completion of its two empty cells
is legal, so the search frontier of the iterative driver empties. -/
def unsolvableBoard4 : Board :=
  boardOfLists [[0, 2, 3, 4], [3, 4, 1, 2], [1, 0, 4, 3], [4, 3, 2, 1]]

/-- A 9 × 9 board (n = 3) whose search tree reaches the same state along two
different move orders, so the iterative driver pops an already-expanded
fingerprint. -/
def revisitBoard9 : Board :=
  boardOfLists [
    [0, 0, 3, 4, 2, 6, 7, 8, 9],
    [4, 5, 6, 7, 8, 9, 1, 2, 3],
    [7, 8, 9, 1, 0, 3, 4, 0, 6],
    [2, 3, 4, 5, 6, 7, 8, 9, 1],
    [5, 6, 7, 8, 9, 0, 2, 3, 4],
    [8, 9, 1, 2, 3, 4, 5, 6, 7],
    [3, 4, 0, 6, 7, 8, 9, 1, 2],
    [6, 7, 8, 9, 1, 2, 3, 4, 5],
    [9, 0, 2, 3, 4, 5, 6, 7, 8]]

/-- A 4 × 4 board whose row 0 is [1, 2, 3, 4] while its column 0 is
[1, 0, 0, 0]: the two disagree, which separates get_row from the true row. -/
def rowBoard4 : Board :=
  boardOfLists [[1, 2, 3, 4]]

/-- legalBoard4 together with a freshly built move cache. -/
def legalCBoard4 : CBoard :=
  ⟨legalBoard4, some (get_move_cache 2 legalBoard4)⟩

/-- sentinelBoard4 together with a freshly built move cache. -/
def sentinelCBoard4 : CBoard :=
  ⟨sentinelBoard4, some (get_move_cache 2 sentinelBoard4)⟩

/-- An interleaving: apply the move (0, 0, 2), then undo it. -/
def roundtripOps : List (Bool × Move) :=
  [(true, (0, 0, 2)), (false, (0, 0, 2))]

/-- A driver state with an exhausted frontier. -/
def emptyState : SolveState :=
  ⟨[], [], 0, 0, 0⟩

/-!
Counting toolkit: the uniqueness check of is_legal_state counts distinct
nonzero values, which we relate to `List.count` bounds.
-/

lemma nodupCheck_iff (l : List Nat) :
    nodupCheck l = true ↔ (l.filter (fun v => v != 0)).Nodup := by
  unfold nodupCheck
  rw [beq_iff_eq]
  constructor
  · intro h
    have hsub := List.dedup_sublist (l.filter (fun v => v != 0))
    have := hsub.eq_of_length h
    rw [← this]
    exact List.nodup_dedup _
  · intro h
    rw [List.dedup_eq_self.2 h]

lemma nodup_filter_iff (l : List Nat) :
    (l.filter (fun v => v != 0)).Nodup ↔ ∀ v, v ≠ 0 → l.count v ≤ 1 := by
  rw [List.nodup_iff_count_le_one]
  constructor
  · intro h v hv
    have hcf : (l.filter (fun u => u != 0)).count v = l.count v := by
      rw [List.count_filter]
      simp [hv]
    have := h v
    rwa [hcf] at this
  · intro h a
    by_cases ha : a = 0
    · subst ha
      have : (0 : Nat) ∉ l.filter (fun v => v != 0) := by simp
      simp [List.count_eq_zero.2 this]
    · have hcf : (l.filter (fun u => u != 0)).count a = l.count a := by
        rw [List.count_filter]
        simp [ha]
      rw [hcf]
      exact h a ha

lemma nodupCheck_count (l : List Nat) :
    nodupCheck l = true ↔ ∀ v, v ≠ 0 → l.count v ≤ 1 :=
  (nodupCheck_iff l).trans (nodup_filter_iff l)

/-- is_legal_state unfolded to count bounds over rows, columns and
subgrids. -/
lemma is_legal_state_iff (n : Nat) (b : Board) :
    is_legal_state n b = true ↔
      (∀ x, x < size n → ∀ v, v ≠ 0 → (rowList n b x).count v ≤ 1) ∧
      (∀ y, y < size n → ∀ v, v ≠ 0 → (colList n b y).count v ≤ 1) ∧
      (∀ p, p < n → ∀ q, q < n → ∀ v, v ≠ 0 →
        (subgridList n b (n * p) (n * q)).count v ≤ 1) := by
  unfold is_legal_state
  simp only [Bool.and_eq_true, List.all_eq_true, List.mem_range]
  constructor
  · rintro ⟨⟨hr, hc⟩, hs⟩
    exact ⟨fun x hx => (nodupCheck_count _).1 (hr x hx),
           fun y hy => (nodupCheck_count _).1 (hc y hy),
           fun p hp q hq => (nodupCheck_count _).1 (hs p hp q hq)⟩
  · rintro ⟨hr, hc, hs⟩
    exact ⟨⟨fun x hx => (nodupCheck_count _).2 (hr x hx),
            fun y hy => (nodupCheck_count _).2 (hc y hy)⟩,
           fun p hp q hq => (nodupCheck_count _).2 (hs p hp q hq)⟩

lemma count_map_range (f : Nat → Nat) (m v : Nat) :
    ((List.range m).map f).count v
      = ((List.range m).filter (fun i => f i == v)).length := by
  induction m with
  | zero => simp
  | succ k ih =>
    rw [List.range_succ]
    simp only [List.map_append, List.count_append, List.filter_append,
      List.length_append, ih]
    by_cases h : f k = v <;> simp [List.count_singleton, h]

lemma countP_range_update (p q : Nat → Bool) (m y : Nat) (hy : y < m)
    (hagree : ∀ j, j ≠ y → p j = q j) :
    (List.range m).countP p + (if q y then 1 else 0)
      = (List.range m).countP q + (if p y then 1 else 0) := by
  induction m with
  | zero => omega
  | succ k ih =>
    rw [List.range_succ, List.countP_append, List.countP_append]
    rcases Nat.lt_succ_iff_lt_or_eq.1 hy with hlt | heq
    · have hk : p k = q k := hagree k (by omega)
      have := ih hlt
      simp only [List.countP_cons, List.countP_nil, hk]
      omega
    · have hpq : (List.range k).countP p = (List.range k).countP q := by
        refine List.countP_congr (fun j hj => ?_)
        rw [hagree j (by simp at hj; omega)]
      have hyk : p y = p k := by rw [heq]
      have hqk : q y = q k := by rw [heq]
      simp only [List.countP_cons, List.countP_nil, hpq, hyk, hqk]
      by_cases hp : p k = true <;> by_cases hq : q k = true <;>
        simp only [hp, hq, if_true, if_false] <;> omega

/-- Count of v in a mapped range after changing the function at one index
from 0 to a nonzero value v0. -/
lemma count_map_range_update (g : Nat → Nat) (m y v0 v : Nat) (hy : y < m)
    (h0 : g y = 0) (hv : v ≠ 0) :
    ((List.range m).map (fun j => if j = y then v0 else g j)).count v
      = ((List.range m).map g).count v + (if v0 = v then 1 else 0) := by
  rw [count_map_range, count_map_range, ← List.countP_eq_length_filter,
    ← List.countP_eq_length_filter]
  have h := countP_range_update (fun j => (if j = y then v0 else g j) == v)
    (fun j => g j == v) m y hy (fun j hj => by simp [hj])
  simp only [if_pos rfl, h0] at h
  have hgy : (0 == v) = false := by simp [Ne.symm hv]
  simp only [hgy, if_true, Bool.false_eq_true, if_false] at h
  by_cases hv0 : v0 = v
  · subst hv0
    simp only [beq_self_eq_true, ite_true, if_true] at h
    rw [if_pos (rfl : v0 = v0)]
    omega
  · have hne : (v0 == v) = false := by simp [hv0]
    simp only [hne, Bool.false_eq_true, ite_false, if_false] at h
    simp only [if_neg hv0]
    omega

/-!
Structure of the three cell groups and the effect of a single cell write.
-/

lemma flatMap_range_map (a c : Nat) (h : Nat → Nat → Nat) :
    (List.range a).flatMap (fun p => (List.range c).map (fun q => h p q))
      = (List.range (a * c)).map (fun k => h (k / c) (k % c)) := by
  rcases Nat.eq_zero_or_pos c with hc | hc
  · subst hc
    simp
  induction a with
  | zero => simp
  | succ t ih =>
    rw [List.range_succ, List.flatMap_append, ih, Nat.succ_mul, List.range_add,
      List.map_append]
    congr 1
    · simp only [List.flatMap_cons, List.flatMap_nil, List.append_nil]
      rw [List.map_map]
      refine List.map_congr_left (fun q hq => ?_)
      have hqc : q < c := List.mem_range.1 hq
      have h1 : (t * c + q) / c = t + q / c := by
        rw [Nat.mul_comm t c, Nat.mul_add_div hc]
      have h2 : (t * c + q) % c = q % c := by
        rw [Nat.mul_comm t c, Nat.mul_add_mod]
      simp [h1, h2, Nat.div_eq_of_lt hqc, Nat.mod_eq_of_lt hqc]

lemma subgridList_eq (n : Nat) (b : Board) (i j : Nat) :
    subgridList n b i j = (List.range (n * n)).map (fun k => b (i + k / n) (j + k % n)) :=
  flatMap_range_map n n (fun di dj => b (i + di) (j + dj))

lemma mem_rowList (n : Nat) (b : Board) (x v : Nat) :
    v ∈ rowList n b x ↔ ∃ y, y < size n ∧ b x y = v := by
  simp [rowList, List.mem_map, List.mem_range]

lemma mem_colList (n : Nat) (b : Board) (y v : Nat) :
    v ∈ colList n b y ↔ ∃ x, x < size n ∧ b x y = v := by
  simp [colList, List.mem_map, List.mem_range]

lemma mem_subgridList (n : Nat) (b : Board) (i j v : Nat) :
    v ∈ subgridList n b i j ↔ ∃ di dj, di < n ∧ dj < n ∧ b (i + di) (j + dj) = v := by
  simp only [subgridList, List.mem_flatMap, List.mem_map, List.mem_range]
  constructor
  · rintro ⟨di, hdi, dj, hdj, hval⟩
    exact ⟨di, dj, hdi, hdj, hval⟩
  · rintro ⟨di, dj, hdi, hdj, hval⟩
    exact ⟨di, hdi, dj, hdj, hval⟩

lemma set_cell_same (b : Board) (x y v : Nat) : set_cell b x y v x y = v := by
  simp [set_cell]

lemma set_cell_other (b : Board) (x y v i j : Nat) (h : ¬(i = x ∧ j = y)) :
    set_cell b x y v i j = b i j := by
  simp [set_cell, h]

lemma rowList_set_cell_ne (n : Nat) (b : Board) (x y v x' : Nat) (h : x' ≠ x) :
    rowList n (set_cell b x y v) x' = rowList n b x' := by
  refine List.map_congr_left (fun j _ => ?_)
  exact set_cell_other b x y v x' j (by tauto)

lemma rowList_set_cell_eq (n : Nat) (b : Board) (x y v : Nat) :
    rowList n (set_cell b x y v) x
      = (List.range (size n)).map (fun j => if j = y then v else b x j) := by
  refine List.map_congr_left (fun j _ => ?_)
  by_cases hj : j = y <;> simp [set_cell, hj]

lemma colList_set_cell_ne (n : Nat) (b : Board) (x y v y' : Nat) (h : y' ≠ y) :
    colList n (set_cell b x y v) y' = colList n b y' := by
  refine List.map_congr_left (fun i _ => ?_)
  exact set_cell_other b x y v i y' (by tauto)

lemma colList_set_cell_eq (n : Nat) (b : Board) (x y v : Nat) :
    colList n (set_cell b x y v) y
      = (List.range (size n)).map (fun i => if i = x then v else b i y) := by
  refine List.map_congr_left (fun i _ => ?_)
  by_cases hi : i = x <;> simp [set_cell, hi]

lemma subgridList_set_cell_ne (n : Nat) (b : Board) (x y v i j : Nat)
    (h : ∀ di dj, di < n → dj < n → ¬(i + di = x ∧ j + dj = y)) :
    subgridList n (set_cell b x y v) i j = subgridList n b i j := by
  rw [subgridList_eq, subgridList_eq]
  refine List.map_congr_left (fun k hk => ?_)
  have hk' : k < n * n := List.mem_range.1 hk
  have hn : 0 < n := by
    rcases Nat.eq_zero_or_pos n with h0 | h0
    · subst h0
      omega
    · exact h0
  exact set_cell_other b x y v _ _ (h (k / n) (k % n)
    (Nat.div_lt_of_lt_mul (by omega)) (Nat.mod_lt _ hn))

/-- Writing to cell (x, y) changes the subgrid that contains it at the unique
flattened position (x % n) * n + y % n. -/
lemma subgridList_set_cell_eq (n : Nat) (b : Board) (x y v : Nat) (hn : 0 < n) :
    subgridList n (set_cell b x y v) (n * (x / n)) (n * (y / n))
      = (List.range (n * n)).map (fun k =>
          if k = (x % n) * n + y % n then v
          else b (n * (x / n) + k / n) (n * (y / n) + k % n)) := by
  rw [subgridList_eq]
  refine List.map_congr_left (fun k hk => ?_)
  have hk' : k < n * n := List.mem_range.1 hk
  have hdm : n * (k / n) + k % n = k := Nat.div_add_mod k n
  have hxx : n * (x / n) + x % n = x := Nat.div_add_mod x n
  have hyy : n * (y / n) + y % n = y := Nat.div_add_mod y n
  have hkn : k % n < n := Nat.mod_lt _ hn
  have hxn : x % n < n := Nat.mod_lt _ hn
  have hyn : y % n < n := Nat.mod_lt _ hn
  by_cases hk0 : k = (x % n) * n + y % n
  · subst hk0
    have h1 : ((x % n) * n + y % n) / n = x % n := by
      rw [Nat.mul_comm (x % n) n, Nat.mul_add_div hn, Nat.div_eq_of_lt hyn,
        Nat.add_zero]
    have h2 : ((x % n) * n + y % n) % n = y % n := by
      rw [Nat.mul_comm (x % n) n, Nat.mul_add_mod, Nat.mod_eq_of_lt hyn]
    rw [if_pos rfl]
    rw [h1, h2]
    have hx' : n * (x / n) + x % n = x := hxx
    have hy' : n * (y / n) + y % n = y := hyy
    rw [hx', hy', set_cell_same]
  · rw [if_neg hk0]
    refine set_cell_other b x y v _ _ ?_
    rintro ⟨h1, h2⟩
    apply hk0
    have e1 : k / n = x % n := by omega
    have e2 : k % n = y % n := by omega
    rw [e1, e2] at hdm
    rw [Nat.mul_comm n (x % n)] at hdm
    omega

lemma mul_add_div_lt (n a r : Nat) (hn : 0 < n) (hr : r < n) : (a * n + r) / n = a := by
  rw [Nat.mul_comm a n, Nat.mul_add_div hn, Nat.div_eq_of_lt hr, Nat.add_zero]

lemma mul_add_mod_lt (n a r : Nat) (hr : r < n) : (a * n + r) % n = r := by
  rw [Nat.mul_comm a n, Nat.mul_add_mod, Nat.mod_eq_of_lt hr]

/-- Central characterization: writing a nonzero value into an empty in-range
cell of a legal board keeps the board legal exactly when the value does not
already occur in the row, the column, or the subgrid of the cell. -/
lemma is_legal_set_cell_iff (n : Nat) (b : Board) (x y v : Nat)
    (hb : is_legal_state n b = true) (hx : x < size n) (hy : y < size n)
    (h0 : b x y = EMPTY_SPACE) (hv : v ≠ 0) :
    is_legal_state n (set_cell b x y v) = true ↔
      v ∉ rowList n b x ∧ v ∉ colList n b y ∧
      v ∉ subgridList n b (n * (x / n)) (n * (y / n)) := by
  have hn : 0 < n := by
    rcases Nat.eq_zero_or_pos n with h | h
    · rw [h] at hx
      simp [size] at hx
    · exact h
  have hxdiv : x / n < n := by
    rw [Nat.div_lt_iff_lt_mul hn]
    simpa [size, Nat.mul_comm] using hx
  have hydiv : y / n < n := by
    rw [Nat.div_lt_iff_lt_mul hn]
    simpa [size, Nat.mul_comm] using hy
  have hk0 : (x % n) * n + y % n < n * n := by
    have hxm : x % n < n := Nat.mod_lt _ hn
    have hym : y % n < n := Nat.mod_lt _ hn
    have h1 : (x % n + 1) * n ≤ n * n := Nat.mul_le_mul_right n hxm
    have h2 : (x % n) * n + n = (x % n + 1) * n := by ring
    omega
  obtain ⟨hbr, hbc, hbs⟩ := (is_legal_state_iff n b).1 hb
  -- count identities for the three affected groups
  have hrow : (rowList n (set_cell b x y v) x).count v = (rowList n b x).count v + 1 := by
    rw [rowList_set_cell_eq]
    have := count_map_range_update (fun j => b x j) (size n) y v v hy h0 hv
    rw [if_pos rfl] at this
    exact this
  have hcol : (colList n (set_cell b x y v) y).count v = (colList n b y).count v + 1 := by
    rw [colList_set_cell_eq]
    have := count_map_range_update (fun i => b i y) (size n) x v v hx h0 hv
    rw [if_pos rfl] at this
    exact this
  have hsubpos : subgridList n (set_cell b x y v) (n * (x / n)) (n * (y / n))
      = (List.range (n * n)).map (fun k =>
          if k = (x % n) * n + y % n then v
          else b (n * (x / n) + k / n) (n * (y / n) + k % n)) :=
    subgridList_set_cell_eq n b x y v hn
  have hg0 : b (n * (x / n) + ((x % n) * n + y % n) / n)
      (n * (y / n) + ((x % n) * n + y % n) % n) = 0 := by
    rw [mul_add_div_lt n (x % n) (y % n) hn (Nat.mod_lt _ hn),
      mul_add_mod_lt n (x % n) (y % n) (Nat.mod_lt _ hn),
      Nat.add_comm (n * (x / n)) (x % n), Nat.mod_add_div, Nat.div_add_mod]
    exact h0
  have hsub : (subgridList n (set_cell b x y v) (n * (x / n)) (n * (y / n))).count v
      = (subgridList n b (n * (x / n)) (n * (y / n))).count v + 1 := by
    rw [hsubpos, subgridList_eq]
    have := count_map_range_update
      (fun k => b (n * (x / n) + k / n) (n * (y / n) + k % n))
      (n * n) ((x % n) * n + y % n) v v hk0 hg0 hv
    rw [if_pos rfl] at this
    exact this
  rw [is_legal_state_iff]
  constructor
  · rintro ⟨hr', hc', hs'⟩
    refine ⟨?_, ?_, ?_⟩
    · intro hmem
      have hpos : 0 < (rowList n b x).count v := List.count_pos_iff.2 hmem
      have h1 := hr' x hx v hv
      rw [hrow] at h1
      omega
    · intro hmem
      have hpos : 0 < (colList n b y).count v := List.count_pos_iff.2 hmem
      have h1 := hc' y hy v hv
      rw [hcol] at h1
      omega
    · intro hmem
      have hpos : 0 < (subgridList n b (n * (x / n)) (n * (y / n))).count v :=
        List.count_pos_iff.2 hmem
      have h1 := hs' (x / n) hxdiv (y / n) hydiv v hv
      rw [hsub] at h1
      omega
  · rintro ⟨hnr, hnc, hns⟩
    have hrcount : (rowList n b x).count v = 0 := List.count_eq_zero.2 hnr
    have hccount : (colList n b y).count v = 0 := List.count_eq_zero.2 hnc
    have hscount : (subgridList n b (n * (x / n)) (n * (y / n))).count v = 0 :=
      List.count_eq_zero.2 hns
    refine ⟨?_, ?_, ?_⟩
    · intro x' hx' v' hv'
      by_cases hxx : x' = x
      · subst hxx
        by_cases hvv : v' = v
        · subst hvv
          rw [hrow, hrcount]
        · rw [rowList_set_cell_eq]
          have heq := count_map_range_update (fun j => b x' j) (size n) y v v' hy h0 hv'
          rw [if_neg (Ne.symm hvv), Nat.add_zero] at heq
          rw [heq]
          exact hbr x' hx' v' hv'
      · rw [rowList_set_cell_ne n b x y v x' hxx]
        exact hbr x' hx' v' hv'
    · intro y' hy' v' hv'
      by_cases hyy : y' = y
      · subst hyy
        by_cases hvv : v' = v
        · subst hvv
          rw [hcol, hccount]
        · rw [colList_set_cell_eq]
          have heq := count_map_range_update (fun i => b i y') (size n) x v v' hx h0 hv'
          rw [if_neg (Ne.symm hvv), Nat.add_zero] at heq
          rw [heq]
          exact hbc y' hy' v' hv'
      · rw [colList_set_cell_ne n b x y v y' hyy]
        exact hbc y' hy' v' hv'
    · intro p hp q hq v' hv'
      by_cases hblock : p = x / n ∧ q = y / n
      · obtain ⟨hp', hq'⟩ := hblock
        subst hp'
        subst hq'
        by_cases hvv : v' = v
        · subst hvv
          rw [hsub, hscount]
        · rw [hsubpos]
          have heq := count_map_range_update
            (fun k => b (n * (x / n) + k / n) (n * (y / n) + k % n))
            (n * n) ((x % n) * n + y % n) v v' hk0 hg0 hv'
          rw [if_neg (Ne.symm hvv), Nat.add_zero] at heq
          rw [heq, ← subgridList_eq]
          exact hbs (x / n) hxdiv (y / n) hydiv v' hv'
      · have hno : ∀ di dj, di < n → dj < n → ¬(n * p + di = x ∧ n * q + dj = y) := by
          rintro di dj hdi hdj ⟨e1, e2⟩
          apply hblock
          constructor
          · rw [← e1, Nat.mul_comm n p]
            exact (mul_add_div_lt n p di hn hdi).symm
          · rw [← e2, Nat.mul_comm n q]
            exact (mul_add_div_lt n q dj hn hdj).symm
        rw [subgridList_set_cell_ne n b x y v _ _ hno]
        exact hbs p hp q hq v' hv'

/-!
Characterization of the four move-generation strategies.
-/

lemma mem_empty_cells (n : Nat) (b : Board) (c : Nat × Nat) :
    c ∈ empty_cells n b ↔
      c.1 < size n ∧ c.2 < size n ∧ b c.1 c.2 = EMPTY_SPACE := by
  rcases c with ⟨x, y⟩
  simp only [empty_cells, List.mem_flatMap, List.mem_map, List.mem_filter,
    List.mem_range, EMPTY_SPACE]
  constructor
  · rintro ⟨a, ha, j, ⟨hj, hbj⟩, heq⟩
    simp only [Prod.mk.injEq] at heq
    obtain ⟨rfl, rfl⟩ := heq
    exact ⟨ha, hj, by simpa using hbj⟩
  · rintro ⟨hx, hy, h0⟩
    exact ⟨x, hx, y, ⟨hy, by simpa using h0⟩, rfl⟩

lemma mem_set_iter (n : Nat) (s : Finset Nat) (v : Nat) :
    v ∈ set_iter n s ↔ (1 ≤ v ∧ v ≤ size n) ∧ v ∈ s := by
  simp only [set_iter, List.mem_filter, List.mem_range'_1, decide_eq_true_eq]
  constructor
  · rintro ⟨⟨h1, h2⟩, hs⟩
    exact ⟨⟨h1, by omega⟩, hs⟩
  · rintro ⟨⟨h1, h2⟩, hs⟩
    exact ⟨⟨h1, by omega⟩, hs⟩

lemma set_iter_nodup (n : Nat) (s : Finset Nat) : (set_iter n s).Nodup :=
  (List.nodup_range' 1 (size n)).filter _

lemma set_iter_toFinset (n : Nat) (s : Finset Nat) (hs : s ⊆ allowed_values n) :
    (set_iter n s).toFinset = s := by
  ext v
  rw [List.mem_toFinset, mem_set_iter]
  constructor
  · rintro ⟨_, hv⟩
    exact hv
  · intro hv
    have := hs hv
    rw [allowed_values, Finset.mem_Icc] at this
    exact ⟨this, hv⟩

lemma set_iter_length (n : Nat) (s : Finset Nat) (hs : s ⊆ allowed_values n) :
    (set_iter n s).length = s.card := by
  have h := List.toFinset_card_of_nodup (set_iter_nodup n s)
  rw [set_iter_toFinset n s hs] at h
  exact h.symm

lemma set_iter_eq_nil_iff (n : Nat) (s : Finset Nat) (hs : s ⊆ allowed_values n) :
    set_iter n s = [] ↔ s.card = 0 := by
  constructor
  · intro h
    rw [← set_iter_length n s hs, h]
    rfl
  · intro h
    have hlen : (set_iter n s).length = 0 := by rw [set_iter_length n s hs, h]
    exact List.length_eq_zero.1 hlen

lemma possible_values_subset (n : Nat) (b : Board) (x y : Nat) :
    possible_values n b x y ⊆ allowed_values n := by
  intro v hv
  rw [possible_values] at hv
  have h1 := (Finset.mem_inter.1 hv).1
  have h2 := (Finset.mem_inter.1 h1).1
  rw [row_missing] at h2
  exact (Finset.mem_sdiff.1 h2).1

lemma subgrid_missing_at_index (n : Nat) (b : Board) (x y : Nat)
    (hx : x < size n) (hy : y < size n) :
    subgrid_missing_at n b (get_subgrid_index n x y)
      = allowed_values n \ (subgridList n b (n * (x / n)) (n * (y / n))).toFinset := by
  have hn : 0 < n := by
    rcases Nat.eq_zero_or_pos n with h | h
    · rw [h] at hx
      simp [size] at hx
    · exact h
  have hydiv : y / n < n := by
    rw [Nat.div_lt_iff_lt_mul hn]
    simpa [size, Nat.mul_comm] using hy
  rw [subgrid_missing_at, get_subgrid_index,
    mul_add_div_lt n (x / n) (y / n) hn hydiv,
    mul_add_mod_lt n (x / n) (y / n) hydiv]

lemma mem_possible_values (n : Nat) (b : Board) (x y v : Nat)
    (hx : x < size n) (hy : y < size n) :
    v ∈ possible_values n b x y ↔
      v ∈ allowed_values n ∧ v ∉ rowList n b x ∧ v ∉ colList n b y ∧
      v ∉ subgridList n b (n * (x / n)) (n * (y / n)) := by
  rw [possible_values, subgrid_missing_at_index n b x y hx hy, row_missing, col_missing]
  simp only [Finset.mem_inter, Finset.mem_sdiff, List.mem_toFinset]
  tauto

/-- On a legal board, the trial-and-revalidate loop of the naive strategy
finds for each empty cell exactly the candidate values of the improved
strategy, in the same (ascending) order. -/
lemma naive_cell_values_eq (n : Nat) (b : Board) (x y : Nat)
    (hb : is_legal_state n b = true) (hx : x < size n) (hy : y < size n)
    (h0 : b x y = EMPTY_SPACE) :
    naive_cell_values n b x y = set_iter n (possible_values n b x y) := by
  unfold naive_cell_values set_iter
  refine List.filter_congr (fun i hi => ?_)
  have hi' : 1 ≤ i ∧ i < 1 + size n := List.mem_range'_1.1 hi
  have hv : i ≠ 0 := by omega
  rw [Bool.eq_iff_iff, decide_eq_true_eq]
  rw [is_legal_set_cell_iff n b x y i hb hx hy h0 hv,
    mem_possible_values n b x y i hx hy]
  have hall : i ∈ allowed_values n := by
    rw [allowed_values, Finset.mem_Icc]
    omega
  tauto

/-- On a legal board the naive strategy computes exactly the improved move
list (same moves in the same order). -/
lemma naive_eq_improved (n : Nat) (b : Board) (hb : is_legal_state n b = true) :
    naive_get_legal_moves n b = improved_get_legal_moves n b Version.IMPROVED := by
  have hgroups : naive_groups n b = improved_groups n b := by
    unfold naive_groups improved_groups
    refine List.map_congr_left (fun c hc => ?_)
    obtain ⟨hx, hy, h0⟩ := (mem_empty_cells n b c).1 hc
    rw [naive_cell_values_eq n b c.1 c.2 hb hx hy h0]
  have hcond : (improved_groups n b).all (fun g => !g.isEmpty)
      = (empty_cells n b).all (fun c => (possible_values n b c.1 c.2).card != 0) := by
    unfold improved_groups
    rw [Bool.eq_iff_iff, List.all_eq_true, List.all_eq_true]
    have hpt : ∀ c ∈ empty_cells n b,
        ((!((set_iter n (possible_values n b c.1 c.2)).map
            (fun i => (c.1, c.2, i))).isEmpty) = true)
          ↔ (((possible_values n b c.1 c.2).card != 0) = true) := by
      intro c _
      have hsub := possible_values_subset n b c.1 c.2
      by_cases h : (possible_values n b c.1 c.2).card = 0
      · have hnil : set_iter n (possible_values n b c.1 c.2) = [] :=
          (set_iter_eq_nil_iff n _ hsub).2 h
        simp [hnil, h]
      · have hne : set_iter n (possible_values n b c.1 c.2) ≠ [] :=
          fun he => h ((set_iter_eq_nil_iff n _ hsub).1 he)
        simp [h, List.isEmpty_iff, hne]
    constructor
    · intro h c hc
      exact (hpt c hc).1 (h _ (List.mem_map_of_mem _ hc))
    · intro h g hg
      obtain ⟨c, hc, rfl⟩ := List.mem_map.1 hg
      exact (hpt c hc).2 (h c hc)
  rw [naive_get_legal_moves, improved_get_legal_moves, hgroups, hcond,
    if_neg (show ¬ Version.IMPROVED = Version.SORTED by decide)]

lemma cache_flatten_of_no_empty (n : Nat) (l : List ((Nat × Nat) × Finset Nat))
    (h : ∀ e ∈ l, e.2.card ≠ 0) :
    cache_flatten n l
      = some ((l.map (fun e =>
          (set_iter n e.2).map (fun v => (e.1.1, e.1.2, v)))).flatten) := by
  induction l with
  | nil => rfl
  | cons e rest ih =>
    obtain ⟨c, s⟩ := e
    rw [cache_flatten, if_neg (h (c, s) (List.mem_cons_self _ _)),
      ih (fun e' he' => h e' (List.mem_cons_of_mem _ he'))]
    rfl

lemma cache_flatten_none (n : Nat) (l : List ((Nat × Nat) × Finset Nat))
    (h : ∃ e ∈ l, e.2.card = 0) : cache_flatten n l = none := by
  induction l with
  | nil =>
    obtain ⟨e, he, _⟩ := h
    exact absurd he (List.not_mem_nil e)
  | cons e rest ih =>
    obtain ⟨c, s⟩ := e
    by_cases hs : s.card = 0
    · rw [cache_flatten, if_pos hs]
    · rw [cache_flatten, if_neg hs]
      obtain ⟨e', he', h0⟩ := h
      rcases List.mem_cons.1 he' with rfl | hmem
      · exact absurd h0 hs
      · rw [ih ⟨e', hmem, h0⟩]
        rfl

/-- The cached strategy (on a board without a prebuilt cache) returns a
permutation of the improved move list. -/
lemma cache_perm_improved (n : Nat) (b : Board) :
    (cache_get_legal_moves n b).Perm (improved_get_legal_moves n b Version.IMPROVED) := by
  by_cases hcond : (empty_cells n b).all
      (fun c => (possible_values n b c.1 c.2).card != 0) = true
  · have hperm : ((get_move_cache n b).insertionSort
        (fun e1 e2 => e2.2.card ≤ e1.2.card)).Perm (get_move_cache n b) :=
      List.perm_insertionSort _ _
    have hno : ∀ e ∈ (get_move_cache n b).insertionSort
        (fun e1 e2 => e2.2.card ≤ e1.2.card), e.2.card ≠ 0 := by
      intro e he
      have he' : e ∈ get_move_cache n b := hperm.mem_iff.1 he
      obtain ⟨c, hc, rfl⟩ := List.mem_map.1 he'
      have := List.all_eq_true.1 hcond c hc
      simpa using this
    rw [cache_get_legal_moves, cache_flatten_of_no_empty n _ hno, Option.getD_some,
      improved_get_legal_moves, if_pos hcond,
      if_neg (show ¬ Version.IMPROVED = Version.SORTED by decide)]
    have hmapped : ((get_move_cache n b).map (fun e =>
        (set_iter n e.2).map (fun v => (e.1.1, e.1.2, v)))) = improved_groups n b := by
      rw [get_move_cache, improved_groups, List.map_map]
      rfl
    refine List.Perm.flatten ?_
    have := hperm.map (fun e => (set_iter n e.2).map (fun v => (e.1.1, e.1.2, v)))
    rw [hmapped] at this
    exact this
  · have hex : ∃ c ∈ empty_cells n b, (possible_values n b c.1 c.2).card = 0 := by
      by_contra hno
      push_neg at hno
      apply hcond
      rw [List.all_eq_true]
      intro c hc
      simpa using hno c hc
    obtain ⟨c, hc, h0⟩ := hex
    have hmem : ((c.1, c.2), possible_values n b c.1 c.2)
        ∈ (get_move_cache n b).insertionSort (fun e1 e2 => e2.2.card ≤ e1.2.card) := by
      rw [(List.perm_insertionSort _ _).mem_iff]
      rw [get_move_cache]
      refine List.mem_map.2 ⟨c, hc, ?_⟩
      rfl
    rw [cache_get_legal_moves,
      cache_flatten_none n _ ⟨_, hmem, h0⟩, improved_get_legal_moves, if_neg hcond]
    rfl

/-- The sorted strategy returns a permutation of the improved move list. -/
lemma sorted_perm_improved (n : Nat) (b : Board) :
    (improved_get_legal_moves n b Version.SORTED).Perm
      (improved_get_legal_moves n b Version.IMPROVED) := by
  rw [improved_get_legal_moves, improved_get_legal_moves]
  by_cases hcond : (empty_cells n b).all
      (fun c => (possible_values n b c.1 c.2).card != 0) = true
  · rw [if_pos hcond, if_pos hcond,
      if_pos (rfl : Version.SORTED = Version.SORTED),
      if_neg (show ¬ Version.IMPROVED = Version.SORTED by decide)]
    exact List.Perm.flatten (List.perm_insertionSort _ _)
  · rw [if_neg hcond, if_neg hcond]

lemma get_legal_moves_perm (n : Nat) (b : Board) (v : Version)
    (hb : is_legal_state n b = true) :
    (get_legal_moves n b v).Perm (improved_get_legal_moves n b Version.IMPROVED) := by
  cases v with
  | NAIVE =>
    show (naive_get_legal_moves n b).Perm _
    rw [naive_eq_improved n b hb]
  | IMPROVED =>
    exact List.Perm.refl _
  | SORTED =>
    exact sorted_perm_improved n b
  | STORE_LEGAL =>
    exact cache_perm_improved n b

/-!
Grouping shape of the Sorted and Cached outputs.
-/

lemma sorted_grouped (n : Nat) (b : Board) :
    GroupedByCellDesc n b (improved_get_legal_moves n b Version.SORTED) := by
  rw [improved_get_legal_moves]
  by_cases hcond : (empty_cells n b).all
      (fun c => (possible_values n b c.1 c.2).card != 0) = true
  · rw [if_pos hcond, if_pos (rfl : Version.SORTED = Version.SORTED)]
    refine ⟨(improved_groups n b).insertionSort (fun g1 g2 => g2.length ≤ g1.length),
      rfl, ?_, ?_⟩
    · intro g hg
      have hg' : g ∈ improved_groups n b :=
        (List.perm_insertionSort _ _).mem_iff.1 hg
      obtain ⟨c, hc, rfl⟩ := List.mem_map.1 hg'
      obtain ⟨hx, hy, h0⟩ := (mem_empty_cells n b c).1 hc
      refine ⟨c.1, c.2, hx, hy, h0, ?_, ?_⟩
      · rw [List.length_map, set_iter_length n _ (possible_values_subset n b c.1 c.2)]
      · intro mv hmv
        obtain ⟨i, _, rfl⟩ := List.mem_map.1 hmv
        exact ⟨rfl, rfl⟩
    · exact List.sorted_insertionSort _ _
  · rw [if_neg hcond]
    exact ⟨[], rfl, by simp, by simp⟩

lemma cached_grouped (n : Nat) (b : Board) :
    GroupedByCellDesc n b (cache_get_legal_moves n b) := by
  by_cases hcond : (empty_cells n b).all
      (fun c => (possible_values n b c.1 c.2).card != 0) = true
  · have hno : ∀ e ∈ (get_move_cache n b).insertionSort
        (fun e1 e2 => e2.2.card ≤ e1.2.card), e.2.card ≠ 0 := by
      intro e he
      have he' : e ∈ get_move_cache n b :=
        (List.perm_insertionSort _ _).mem_iff.1 he
      obtain ⟨c, hc, rfl⟩ := List.mem_map.1 he'
      have := List.all_eq_true.1 hcond c hc
      simpa using this
    rw [cache_get_legal_moves, cache_flatten_of_no_empty n _ hno, Option.getD_some]
    refine ⟨_, rfl, ?_, ?_⟩
    · intro g hg
      obtain ⟨e, he, rfl⟩ := List.mem_map.1 hg
      have he' : e ∈ get_move_cache n b :=
        (List.perm_insertionSort _ _).mem_iff.1 he
      obtain ⟨c, hc, rfl⟩ := List.mem_map.1 he'
      obtain ⟨hx, hy, h0⟩ := (mem_empty_cells n b c).1 hc
      refine ⟨c.1, c.2, hx, hy, h0, ?_, ?_⟩
      · rw [List.length_map, set_iter_length n _ (possible_values_subset n b c.1 c.2)]
      · intro mv hmv
        obtain ⟨i, _, rfl⟩ := List.mem_map.1 hmv
        exact ⟨rfl, rfl⟩
    · rw [List.pairwise_map]
      have hsorted : ((get_move_cache n b).insertionSort
          (fun e1 e2 => e2.2.card ≤ e1.2.card)).Pairwise
            (fun e1 e2 => e2.2.card ≤ e1.2.card) :=
        List.sorted_insertionSort _ _
      refine hsorted.imp_of_mem (fun ha hb hr => ?_)
      have hlen : ∀ e ∈ (get_move_cache n b).insertionSort
          (fun e1 e2 => e2.2.card ≤ e1.2.card),
          ((set_iter n e.2).map (fun v => (e.1.1, e.1.2, v))).length = e.2.card := by
        intro e he
        have he' : e ∈ get_move_cache n b :=
          (List.perm_insertionSort _ _).mem_iff.1 he
        obtain ⟨c, hc, rfl⟩ := List.mem_map.1 he'
        rw [List.length_map, set_iter_length n _ (possible_values_subset n b c.1 c.2)]
      rw [hlen _ ha, hlen _ hb]
      exact hr
  · have hex : ∃ c ∈ empty_cells n b, (possible_values n b c.1 c.2).card = 0 := by
      by_contra hno
      push_neg at hno
      apply hcond
      rw [List.all_eq_true]
      intro c hc
      simpa using hno c hc
    obtain ⟨c, hc, h0⟩ := hex
    have hmem : ((c.1, c.2), possible_values n b c.1 c.2)
        ∈ (get_move_cache n b).insertionSort (fun e1 e2 => e2.2.card ≤ e1.2.card) := by
      rw [(List.perm_insertionSort _ _).mem_iff, get_move_cache]
      exact List.mem_map.2 ⟨c, hc, rfl⟩
    rw [cache_get_legal_moves, cache_flatten_none n _ ⟨_, hmem, h0⟩]
    exact ⟨[], rfl, by simp, by simp⟩

/-!
Moves produced by any strategy, applied to a legal board, keep it legal.
-/

lemma mem_improved_possible (n : Nat) (b : Board) (m : Move)
    (hm : m ∈ improved_get_legal_moves n b Version.IMPROVED) :
    m.1 < size n ∧ m.2.1 < size n ∧ b m.1 m.2.1 = EMPTY_SPACE ∧
      m.2.2 ∈ possible_values n b m.1 m.2.1 := by
  rw [improved_get_legal_moves] at hm
  by_cases hcond : (empty_cells n b).all
      (fun c => (possible_values n b c.1 c.2).card != 0) = true
  · rw [if_pos hcond, if_neg (show ¬ Version.IMPROVED = Version.SORTED by decide)] at hm
    obtain ⟨g, hg, hmg⟩ := List.mem_flatten.1 hm
    obtain ⟨c, hc, rfl⟩ := List.mem_map.1 hg
    obtain ⟨i, hi, rfl⟩ := List.mem_map.1 hmg
    obtain ⟨hx, hy, h0⟩ := (mem_empty_cells n b c).1 hc
    exact ⟨hx, hy, h0, ((mem_set_iter n _ i).1 hi).2⟩
  · rw [if_neg hcond] at hm
    exact absurd hm (List.not_mem_nil m)

lemma legal_after_move (n : Nat) (b : Board) (version : Version) (m : Move)
    (hb : is_legal_state n b = true) (hm : m ∈ get_legal_moves n b version) :
    is_legal_state n (apply_move b m) = true := by
  have hm' : m ∈ improved_get_legal_moves n b Version.IMPROVED :=
    (get_legal_moves_perm n b version hb).mem_iff.1 hm
  obtain ⟨hx, hy, h0, hp⟩ := mem_improved_possible n b m hm'
  obtain ⟨hall, hr, hc, hs⟩ := (mem_possible_values n b m.1 m.2.1 m.2.2 hx hy).1 hp
  have hv : m.2.2 ≠ 0 := by
    rw [allowed_values, Finset.mem_Icc] at hall
    omega
  rw [apply_move]
  exact (is_legal_set_cell_iff n b m.1 m.2.1 m.2.2 hb hx hy h0 hv).2 ⟨hr, hc, hs⟩

lemma move_targets_empty (n : Nat) (b : Board) (version : Version) (m : Move)
    (hb : is_legal_state n b = true) (hm : m ∈ get_legal_moves n b version) :
    b m.1 m.2.1 = EMPTY_SPACE :=
  (mem_improved_possible n b m
    ((get_legal_moves_perm n b version hb).mem_iff.1 hm)).2.2.1

/-!
Invariants of the iterative driver loop.
-/

/-- Every state popped by the iterative driver is legal, provided every state
on the stack is legal. -/
lemma solve_run_trace_legal (n : Nat) (version : Version) :
    ∀ fuel (st : SolveState),
      (∀ b ∈ st.stack, is_legal_state n b = true) →
      ∀ e ∈ (solve_run n version fuel st).2.1, is_legal_state n e.1 = true := by
  intro fuel
  induction fuel with
  | zero =>
    intro st _ e he
    simp [solve_run] at he
  | succ k ih =>
    intro st hstack e he
    obtain ⟨stack, visited, ne, rs, br⟩ := st
    cases stack with
    | nil =>
      simp [solve_run] at he
    | cons state rest =>
      simp only [solve_run] at he
      have hstate : is_legal_state n state = true :=
        hstack state (List.mem_cons_self _ _)
      have hrest : ∀ b ∈ rest, is_legal_state n b = true :=
        fun b hb => hstack b (List.mem_cons_of_mem _ hb)
      by_cases hvis : fingerprint n state ∈ visited
      · rw [if_pos hvis] at he
        rcases List.mem_cons.1 he with rfl | he'
        · exact hstate
        · exact ih _ hrest e he'
      · rw [if_neg hvis] at he
        cases hcomp : is_complete n state with
        | error err =>
          rw [hcomp] at he
          rw [List.mem_singleton] at he
          rw [he]
          exact hstate
        | ok bc =>
          cases bc with
          | true =>
            rw [hcomp] at he
            rw [List.mem_singleton] at he
            rw [he]
            exact hstate
          | false =>
            rw [hcomp] at he
            rcases List.mem_cons.1 he with rfl | he'
            · exact hstate
            · refine ih _ ?_ e he'
              intro b hb
              rcases List.mem_append.1 hb with hb1 | hb2
              · rw [List.mem_reverse] at hb1
                obtain ⟨m, hm, rfl⟩ := List.mem_map.1 hb1
                exact legal_after_move n state version m hstate hm
              · exact hrest b hb2

/-- Fingerprints marked expanded are never removed by the loop. -/
lemma solve_run_visited_mono (n : Nat) (version : Version) :
    ∀ fuel (st : SolveState) (f : Nat), f ∈ st.visited →
      f ∈ (solve_run n version fuel st).2.2.visited := by
  intro fuel
  induction fuel with
  | zero =>
    intro st f hf
    exact hf
  | succ k ih =>
    intro st f hf
    obtain ⟨stack, visited, ne, rs, br⟩ := st
    cases stack with
    | nil => exact hf
    | cons state rest =>
      simp only [solve_run]
      by_cases hvis : fingerprint n state ∈ visited
      · rw [if_pos hvis]
        exact ih _ f hf
      · rw [if_neg hvis]
        cases hcomp : is_complete n state with
        | error err => exact List.mem_cons_of_mem _ hf
        | ok bc =>
          cases bc with
          | true => exact List.mem_cons_of_mem _ hf
          | false => exact ih _ f (List.mem_cons_of_mem _ hf)

/-- Statistics behavior of the loop of SudokuDFS.solve: the revisited-state
counter is never changed, the node-expansion count grows by exactly the
number of popped states that were not skipped, and every non-skipped popped
state has its fingerprint in the final expanded set. -/
lemma solve_run_stats (n : Nat) (version : Version) :
    ∀ fuel (st : SolveState),
      (solve_run n version fuel st).2.2.revistited_states = st.revistited_states ∧
      (solve_run n version fuel st).2.2.node_expansions
        = st.node_expansions
          + ((solve_run n version fuel st).2.1.filter (fun e => !e.2)).length ∧
      ∀ e ∈ (solve_run n version fuel st).2.1, e.2 = false →
        fingerprint n e.1 ∈ (solve_run n version fuel st).2.2.visited := by
  intro fuel
  induction fuel with
  | zero =>
    intro st
    refine ⟨rfl, rfl, ?_⟩
    intro e he
    exact absurd he (List.not_mem_nil e)
  | succ k ih =>
    intro st
    obtain ⟨stack, visited, ne, rs, br⟩ := st
    cases stack with
    | nil =>
      refine ⟨rfl, rfl, ?_⟩
      intro e he
      exact absurd he (List.not_mem_nil e)
    | cons state rest =>
      simp only [solve_run]
      by_cases hvis : fingerprint n state ∈ visited
      · rw [if_pos hvis]
        obtain ⟨ih1, ih2, ih3⟩ :=
          ih ⟨rest, visited, ne, rs, br⟩
        refine ⟨ih1, ?_, ?_⟩
        · simpa [List.filter_cons] using ih2
        · intro e he h2
          rcases List.mem_cons.1 he with rfl | he'
          · simp at h2
          · exact ih3 e he' h2
      · rw [if_neg hvis]
        cases hcomp : is_complete n state with
        | error err =>
          refine ⟨rfl, by simp [List.filter_cons], ?_⟩
          intro e he _
          rw [List.mem_singleton] at he
          rw [he]
          exact List.mem_cons_self _ _
        | ok bc =>
          cases bc with
          | true =>
            refine ⟨rfl, by simp [List.filter_cons], ?_⟩
            intro e he _
            rw [List.mem_singleton] at he
            rw [he]
            exact List.mem_cons_self _ _
          | false =>
            obtain ⟨ih1, ih2, ih3⟩ :=
              ih ⟨(((get_legal_moves n state version).map
                    (fun m => apply_move state m)).reverse ++ rest),
                  fingerprint n state :: visited, ne + 1, rs,
                  br + (get_legal_moves n state version).length⟩
            refine ⟨ih1, ?_, ?_⟩
            · rw [List.filter_cons]
              simp only [Bool.not_false, if_pos rfl]
              rw [ih2]
              simp [List.length_cons]
              omega
            · intro e he h2
              rcases List.mem_cons.1 he with rfl | he'
              · exact solve_run_visited_mono n version k _ _ (List.mem_cons_self _ _)
              · exact ih3 e he' h2

/-!
Result shape and invariants of the recursive driver.
-/

lemma is_complete_ok_true_legal (n : Nat) (b : Board)
    (h : is_complete n b = .ok true) : is_legal_state n b = true := by
  rw [is_complete] at h
  by_cases hfull : ((List.range (size n)).all (fun x =>
      (List.range (size n)).all (fun y => b x y != EMPTY_SPACE))) = true
  · rw [if_pos hfull] at h
    by_cases hleg : is_legal_state n b = true
    · exact hleg
    · rw [if_neg hleg] at h
      cases h
  · rw [if_neg hfull] at h
    cases h

lemma undo_apply_eq (b : Board) (m : Move) (h0 : b m.1 m.2.1 = EMPTY_SPACE) :
    undo_move (apply_move b m) m = b := by
  funext i j
  rw [undo_move, apply_move, set_cell, set_cell]
  by_cases hij : i = m.1 ∧ j = m.2.1
  · rw [if_pos hij]
    obtain ⟨rfl, rfl⟩ := hij
    exact h0.symm
  · rw [if_neg hij, if_neg hij]

/-- Any ok-result of the move loop of solve_recursive is either None or a
board that passed the completeness check. -/
lemma rec_loop_result (n : Nat) (go : Board → List Nat → Except RecError RecOut)
    (hgo : ∀ b v r, go b v = .ok r → r.result = none ∨
      ∃ bs, r.result = some bs ∧ is_complete n bs = .ok true) :
    ∀ (moves : List Move) (state : Board) (visited : List Nat) (r : RecOut),
      rec_loop n go moves state visited = .ok r →
      r.result = none ∨ ∃ bs, r.result = some bs ∧ is_complete n bs = .ok true := by
  intro moves
  induction moves with
  | nil =>
    intro state visited r h
    rw [rec_loop] at h
    injection h with h'
    rw [← h']
    left
    rfl
  | cons m ms ih =>
    intro state visited r h
    rw [rec_loop] at h
    cases hgo1 : go (apply_move state m) visited with
    | error e =>
      rw [hgo1] at h
      cases h
    | ok r1 =>
      rw [hgo1] at h
      dsimp only at h
      cases hcomp : is_complete n r1.board with
      | error e =>
        rw [hcomp] at h
        cases h
      | ok bc =>
        cases bc with
        | true =>
          rw [hcomp] at h
          injection h with h'
          rw [← h']
          right
          exact ⟨r1.board, rfl, hcomp⟩
        | false =>
          rw [hcomp] at h
          cases hres : r1.result with
          | some rr =>
            rw [hres] at h
            injection h with h'
            rw [← h']
            rcases hgo _ _ _ hgo1 with hnone | ⟨bs, hbs, hcbs⟩
            · rw [hres] at hnone
              cases hnone
            · rw [hres] at hbs
              injection hbs with hbs'
              right
              exact ⟨bs, by rw [← hbs'], hcbs⟩
          | none =>
            rw [hres] at h
            cases hloop : rec_loop n go ms (undo_move r1.board m) r1.visited with
            | error e =>
              rw [hloop] at h
              cases h
            | ok r2 =>
              rw [hloop] at h
              injection h with h'
              rw [← h']
              rcases ih _ _ _ hloop with hnone | ⟨bs, hbs, hcbs⟩
              · left
                exact hnone
              · right
                exact ⟨bs, hbs, hcbs⟩

/-- Any ok-result of solve_recursive is either None or a board that passed
the completeness check. -/
lemma solve_recursive_result (n : Nat) (version : Version) :
    ∀ (fuel : Nat) (state : Board) (visited : List Nat) (r : RecOut),
      solve_recursive n version fuel state visited = .ok r →
      r.result = none ∨ ∃ bs, r.result = some bs ∧ is_complete n bs = .ok true := by
  intro fuel
  induction fuel with
  | zero =>
    intro state visited r h
    cases h
  | succ k ih =>
    intro state visited r h
    rw [solve_recursive] at h
    by_cases hvis : fingerprint n state ∈ visited
    · rw [if_pos hvis] at h
      injection h with h'
      rw [← h']
      left
      rfl
    · rw [if_neg hvis] at h
      cases hcomp : is_complete n state with
      | error e =>
        rw [hcomp] at h
        cases h
      | ok bc =>
        cases bc with
        | true =>
          rw [hcomp] at h
          injection h with h'
          rw [← h']
          right
          exact ⟨state, rfl, hcomp⟩
        | false =>
          rw [hcomp] at h
          dsimp only at h
          cases hloop : rec_loop n (solve_recursive n version k)
              (get_legal_moves n state version) state
              (fingerprint n state :: visited) with
          | error e =>
            rw [hloop] at h
            cases h
          | ok rr =>
            rw [hloop] at h
            injection h with h'
            rw [← h']
            rcases rec_loop_result n _ (fun b v r' hr' => ih b v r' hr')
                _ _ _ _ hloop with hnone | ⟨bs, hbs, hcbs⟩
            · left
              exact hnone
            · right
              exact ⟨bs, hbs, hcbs⟩

/-- Invariant of the move loop of solve_recursive: all states entered during
the loop are legal, an unsuccessful loop leaves the shared board exactly as
it found it (undo discipline), and a successful loop returns the completed
board. -/
lemma rec_loop_invariant (n : Nat) (version : Version)
    (go : Board → List Nat → Except RecError RecOut)
    (hgo : ∀ b v r, is_legal_state n b = true → go b v = .ok r →
      (∀ s ∈ r.trace, is_legal_state n s = true) ∧
      (r.result = none → r.board = b) ∧
      (∀ bs, r.result = some bs → r.board = bs ∧ is_complete n bs = .ok true)) :
    ∀ (moves : List Move) (state : Board) (visited : List Nat) (r : RecOut),
      is_legal_state n state = true →
      (∀ m ∈ moves, m ∈ get_legal_moves n state version) →
      rec_loop n go moves state visited = .ok r →
      (∀ s ∈ r.trace, is_legal_state n s = true) ∧
      (r.result = none → r.board = state) ∧
      (∀ bs, r.result = some bs → r.board = bs ∧ is_complete n bs = .ok true) := by
  intro moves
  induction moves with
  | nil =>
    intro state visited r hstate _ h
    injection h with h'
    rw [← h']
    refine ⟨?_, fun _ => rfl, ?_⟩
    · intro s hs
      exact absurd hs (List.not_mem_nil s)
    · intro bs hbs
      cases hbs
  | cons m ms ih =>
    intro state visited r hstate hmoves h
    rw [rec_loop] at h
    have hm : m ∈ get_legal_moves n state version := hmoves m (List.mem_cons_self _ _)
    have hstate1 : is_legal_state n (apply_move state m) = true :=
      legal_after_move n state version m hstate hm
    cases hgo1 : go (apply_move state m) visited with
    | error e =>
      rw [hgo1] at h
      cases h
    | ok r1 =>
      rw [hgo1] at h
      dsimp only at h
      obtain ⟨htr1, hrest1, hsucc1⟩ := hgo _ _ _ hstate1 hgo1
      cases hcomp : is_complete n r1.board with
      | error e =>
        rw [hcomp] at h
        cases h
      | ok bc =>
        cases bc with
        | true =>
          rw [hcomp] at h
          injection h with h'
          rw [← h']
          refine ⟨htr1, ?_, ?_⟩
          · intro habs
            cases habs
          · intro bs hbs
            injection hbs with hbs'
            rw [← hbs']
            exact ⟨rfl, hcomp⟩
        | false =>
          rw [hcomp] at h
          dsimp only at h
          cases hres : r1.result with
          | some rr =>
            obtain ⟨hb1, hc1⟩ := hsucc1 rr hres
            rw [hb1, hc1] at hcomp
            cases hcomp
          | none =>
            rw [hres] at h
            have hb2 : undo_move r1.board m = state := by
              rw [hrest1 hres]
              exact undo_apply_eq state m (move_targets_empty n state version m hstate hm)
            cases hloop : rec_loop n go ms (undo_move r1.board m) r1.visited with
            | error e =>
              rw [hloop] at h
              cases h
            | ok r2 =>
              rw [hloop] at h
              injection h with h'
              rw [← h']
              rw [hb2] at hloop
              obtain ⟨htr2, hrest2, hsucc2⟩ := ih state r1.visited r2 hstate
                (fun m' hm' => hmoves m' (List.mem_cons_of_mem _ hm')) hloop
              refine ⟨?_, ?_, ?_⟩
              · intro s hs
                rcases List.mem_append.1 hs with h1 | h2
                · exact htr1 s h1
                · exact htr2 s h2
              · intro hr2none
                exact hrest2 hr2none
              · intro bs hbs
                exact hsucc2 bs hbs

/-- Invariant of solve_recursive: every entered state is legal, a None
result leaves the shared board untouched, and a successful call returns the
completed board. -/
lemma solve_recursive_invariant (n : Nat) (version : Version) :
    ∀ (fuel : Nat) (state : Board) (visited : List Nat) (r : RecOut),
      is_legal_state n state = true →
      solve_recursive n version fuel state visited = .ok r →
      (∀ s ∈ r.trace, is_legal_state n s = true) ∧
      (r.result = none → r.board = state) ∧
      (∀ bs, r.result = some bs → r.board = bs ∧ is_complete n bs = .ok true) := by
  intro fuel
  induction fuel with
  | zero =>
    intro state visited r _ h
    cases h
  | succ k ih =>
    intro state visited r hstate h
    rw [solve_recursive] at h
    by_cases hvis : fingerprint n state ∈ visited
    · rw [if_pos hvis] at h
      injection h with h'
      rw [← h']
      refine ⟨?_, fun _ => rfl, ?_⟩
      · intro s hs
        rw [List.mem_singleton] at hs
        rw [hs]
        exact hstate
      · intro bs hbs
        cases hbs
    · rw [if_neg hvis] at h
      dsimp only at h
      cases hcomp : is_complete n state with
      | error e =>
        rw [hcomp] at h
        cases h
      | ok bc =>
        cases bc with
        | true =>
          rw [hcomp] at h
          injection h with h'
          rw [← h']
          refine ⟨?_, ?_, ?_⟩
          · intro s hs
            rw [List.mem_singleton] at hs
            rw [hs]
            exact hstate
          · intro habs
            cases habs
          · intro bs hbs
            injection hbs with hbs'
            rw [← hbs']
            exact ⟨rfl, hcomp⟩
        | false =>
          rw [hcomp] at h
          dsimp only at h
          cases hloop : rec_loop n (solve_recursive n version k)
              (get_legal_moves n state version) state
              (fingerprint n state :: visited) with
          | error e =>
            rw [hloop] at h
            cases h
          | ok rr =>
            rw [hloop] at h
            injection h with h'
            rw [← h']
            obtain ⟨htr, hrest, hsucc⟩ := rec_loop_invariant n version _
              (fun b v r' hb' hr' => ih b v r' hb' hr')
              _ _ _ _ hstate (fun m' hm' => hm') hloop
            refine ⟨?_, hrest, hsucc⟩
            intro s hs
            rcases List.mem_cons.1 hs with rfl | hs'
            · exact hstate
            · exact htr s hs'

/-!
Lookup lemmas for the move cache and correctness of the incremental update.
-/

lemma cache_lookup_cons (e : (Nat × Nat) × Finset Nat) (c : Cache) (k : Nat × Nat) :
    cache_lookup (e :: c) k = if e.1 = k then some e.2 else cache_lookup c k := by
  rw [cache_lookup, cache_lookup]
  by_cases h : e.1 = k
  · rw [List.find?_cons_of_pos _ (by simp [h]), if_pos h]
    rfl
  · rw [List.find?_cons_of_neg _ (by simp [h]), if_neg h]

lemma find?_map_key (l : List (Nat × Nat)) (f : Nat × Nat → Finset Nat) (k : Nat × Nat) :
    cache_lookup (l.map (fun c => (c, f c))) k
      = if k ∈ l then some (f k) else none := by
  induction l with
  | nil => simp [cache_lookup]
  | cons c rest ih =>
    rw [List.map_cons, cache_lookup_cons, ih]
    by_cases hc : c = k
    · subst hc
      rw [if_pos rfl, if_pos (List.mem_cons_self _ _)]
    · rw [if_neg hc]
      by_cases hm : k ∈ rest
      · rw [if_pos hm, if_pos (List.mem_cons_of_mem _ hm)]
      · rw [if_neg hm, if_neg (fun hh => by
          rcases List.mem_cons.1 hh with h | h
          · exact hc h.symm
          · exact hm h)]

lemma cache_matches_get_move_cache (n : Nat) (b : Board) :
    cache_matches n b (get_move_cache n b) := by
  intro x y hx hy
  rw [get_move_cache, find?_map_key (empty_cells n b)
    (fun c => possible_values n b c.1 c.2) (x, y)]
  by_cases hxy : (x, y) ∈ empty_cells n b
  · rw [if_pos hxy, if_pos ((mem_empty_cells n b (x, y)).1 hxy).2.2]
  · rw [if_neg hxy,
      if_neg (fun h0 => hxy ((mem_empty_cells n b (x, y)).2 ⟨hx, hy, h0⟩))]

lemma cache_lookup_del (c : Cache) (k k' : Nat × Nat) :
    cache_lookup (cache_del c k) k' = if k' = k then none else cache_lookup c k' := by
  induction c with
  | nil => by_cases h : k' = k <;> simp [cache_del, cache_lookup, h]
  | cons e rest ih =>
    rw [cache_del, List.filter_cons]
    rw [cache_del] at ih
    by_cases he : e.1 = k
    · rw [if_neg (by simp [he]), ih]
      by_cases hk : k' = k
      · rw [if_pos hk, if_pos hk]
      · rw [if_neg hk, if_neg hk, cache_lookup_cons,
          if_neg (fun h => hk (by rw [← h, he]))]
    · rw [if_pos (by simp [he]), cache_lookup_cons, cache_lookup_cons]
      by_cases hek : e.1 = k'
      · rw [if_pos hek, if_pos hek, if_neg (fun h => he (hek.trans h))]
      · rw [if_neg hek, if_neg hek, ih]

lemma cache_lookup_map_erase (c : Cache) (group : List (Nat × Nat)) (val : Nat)
    (k : Nat × Nat) :
    cache_lookup (c.map (erase_entry group val)) k
      = (cache_lookup c k).map (fun s => if k ∈ group then s.erase val else s) := by
  induction c with
  | nil => rfl
  | cons e rest ih =>
    rw [List.map_cons, cache_lookup_cons, cache_lookup_cons]
    have hkey : (erase_entry group val e).1 = e.1 := by
      rw [erase_entry]
      by_cases h : e.1 ∈ group <;> simp [h]
    rw [hkey]
    by_cases he : e.1 = k
    · rw [if_pos he, if_pos he, erase_entry]
      by_cases hg : e.1 ∈ group
      · rw [he] at hg
        rw [if_pos (by rw [he]; exact hg)]
        simp [hg]
      · rw [he] at hg
        rw [if_neg (by rw [he]; exact hg)]
        simp [hg]
    · rw [if_neg he, if_neg he, ih]

lemma update_group_no_sentinel (c : Cache) (g : List (Nat × Nat)) (val : Nat)
    (h : (update_group c g val).2 = false) :
    (update_group c g val).1 = c.map (erase_entry g val) := by
  by_cases hcond :
      (g.foldl (fun acc f =>
          acc ∪ ((cache_lookup (c.map (erase_entry g val)) f).getD ∅)) ∅).card
        < (g.filter (fun f =>
          (cache_lookup (c.map (erase_entry g val)) f).isSome)).length
  · exfalso
    have htrue : (update_group c g val).2 = true := by
      rw [update_group]
      rw [if_pos hcond]
    rw [htrue] at h
    cases h
  · rw [update_group]
    rw [if_neg hcond]

lemma update_move_cache_flag_eq (n : Nat) (c : Cache) (m : Move) :
    update_move_cache_flag n c m
      = ((update_group
            ((update_group
              ((update_group c (row_group n m.1) m.2.2).1)
              (col_group n m.2.1) m.2.2).1)
            (subgrid_group n m.1 m.2.1) m.2.2).1,
         ((update_group c (row_group n m.1) m.2.2).2
          || (update_group
               ((update_group c (row_group n m.1) m.2.2).1)
               (col_group n m.2.1) m.2.2).2)
          || (update_group
               ((update_group
                 ((update_group c (row_group n m.1) m.2.2).1)
                 (col_group n m.2.1) m.2.2).1)
               (subgrid_group n m.1 m.2.1) m.2.2).2) := by
  rw [update_move_cache_flag, get_affected_coordinates]
  simp only [List.foldl]
  rw [Bool.false_or]

lemma update_move_cache_no_sentinel (n : Nat) (c : Cache) (m : Move)
    (h : (update_move_cache_flag n c m).2 = false) :
    update_move_cache n c m
      = ((c.map (erase_entry (row_group n m.1) m.2.2)).map
          (erase_entry (col_group n m.2.1) m.2.2)).map
          (erase_entry (subgrid_group n m.1 m.2.1) m.2.2) := by
  rw [update_move_cache_flag_eq] at h
  dsimp only at h
  rw [Bool.or_eq_false_iff, Bool.or_eq_false_iff] at h
  obtain ⟨⟨h1, h2⟩, h3⟩ := h
  rw [update_move_cache, update_move_cache_flag_eq]
  dsimp only
  rw [update_group_no_sentinel _ _ _ h1] at h2
  rw [update_group_no_sentinel _ _ _ h1, update_group_no_sentinel _ _ _ h2] at h3
  rw [update_group_no_sentinel _ _ _ h1, update_group_no_sentinel _ _ _ h2,
    update_group_no_sentinel _ _ _ h3]

lemma mem_row_group (n x : Nat) (k : Nat × Nat) :
    k ∈ row_group n x ↔ k.1 = x ∧ k.2 < size n := by
  rcases k with ⟨a, bb⟩
  simp only [row_group, List.mem_map, List.mem_range, Prod.mk.injEq]
  constructor
  · rintro ⟨j, hj, h1, h2⟩
    exact ⟨h1.symm, h2 ▸ hj⟩
  · rintro ⟨h1, h2⟩
    exact ⟨bb, h2, h1.symm, rfl⟩

lemma mem_col_group (n y : Nat) (k : Nat × Nat) :
    k ∈ col_group n y ↔ k.2 = y ∧ k.1 < size n := by
  rcases k with ⟨a, bb⟩
  simp only [col_group, List.mem_map, List.mem_range, Prod.mk.injEq]
  constructor
  · rintro ⟨j, hj, h1, h2⟩
    exact ⟨h2.symm, h1 ▸ hj⟩
  · rintro ⟨h1, h2⟩
    exact ⟨a, h2, rfl, h1.symm⟩

lemma sub_corner (n x : Nat) : x - x % n = n * (x / n) := by
  have := Nat.div_add_mod x n
  omega

lemma mem_subgrid_group (n x y : Nat) (hn : 0 < n) (k : Nat × Nat) :
    k ∈ subgrid_group n x y ↔ k.1 / n = x / n ∧ k.2 / n = y / n := by
  rcases k with ⟨a, bb⟩
  simp only [subgrid_group, List.mem_flatMap, List.mem_map, List.mem_range,
    Prod.mk.injEq]
  rw [sub_corner n x, sub_corner n y]
  constructor
  · rintro ⟨i, hi, j, hj, h1, h2⟩
    constructor
    · rw [← h1, Nat.mul_add_div hn, Nat.div_eq_of_lt hi, Nat.add_zero]
    · rw [← h2, Nat.mul_add_div hn, Nat.div_eq_of_lt hj, Nat.add_zero]
  · rintro ⟨h1, h2⟩
    refine ⟨a % n, Nat.mod_lt _ hn, bb % n, Nat.mod_lt _ hn, ?_, ?_⟩
    · rw [← h1, Nat.div_add_mod]
    · rw [← h2, Nat.div_add_mod]

lemma allowed_ne_zero (n u : Nat) (h : u ∈ allowed_values n) : u ≠ 0 := by
  rw [allowed_values, Finset.mem_Icc] at h
  omega

lemma mem_rowList_set_cell (n : Nat) (b : Board) (x y v u : Nat)
    (hy : y < size n) (h0 : b x y = EMPTY_SPACE) (hu : u ≠ 0) :
    u ∈ rowList n (set_cell b x y v) x ↔ u = v ∨ u ∈ rowList n b x := by
  rw [rowList_set_cell_eq]
  simp only [List.mem_map, List.mem_range]
  constructor
  · rintro ⟨j, hj, hval⟩
    by_cases hjy : j = y
    · rw [if_pos hjy] at hval
      left
      exact hval.symm
    · rw [if_neg hjy] at hval
      right
      rw [mem_rowList]
      exact ⟨j, hj, hval⟩
  · rintro (rfl | hmem)
    · exact ⟨y, hy, by rw [if_pos rfl]⟩
    · rw [mem_rowList] at hmem
      obtain ⟨j, hj, hval⟩ := hmem
      have hjy : j ≠ y := by
        intro hh
        rw [hh, h0] at hval
        exact hu hval.symm
      exact ⟨j, hj, by rw [if_neg hjy]; exact hval⟩

lemma mem_colList_set_cell (n : Nat) (b : Board) (x y v u : Nat)
    (hx : x < size n) (h0 : b x y = EMPTY_SPACE) (hu : u ≠ 0) :
    u ∈ colList n (set_cell b x y v) y ↔ u = v ∨ u ∈ colList n b y := by
  rw [colList_set_cell_eq]
  simp only [List.mem_map, List.mem_range]
  constructor
  · rintro ⟨i, hi, hval⟩
    by_cases hix : i = x
    · rw [if_pos hix] at hval
      left
      exact hval.symm
    · rw [if_neg hix] at hval
      right
      rw [mem_colList]
      exact ⟨i, hi, hval⟩
  · rintro (rfl | hmem)
    · exact ⟨x, hx, by rw [if_pos rfl]⟩
    · rw [mem_colList] at hmem
      obtain ⟨i, hi, hval⟩ := hmem
      have hix : i ≠ x := by
        intro hh
        rw [hh, h0] at hval
        exact hu hval.symm
      exact ⟨i, hi, by rw [if_neg hix]; exact hval⟩

lemma mem_subgridList_set_cell (n : Nat) (b : Board) (x y v u : Nat)
    (hn : 0 < n) (h0 : b x y = EMPTY_SPACE) (hu : u ≠ 0) :
    u ∈ subgridList n (set_cell b x y v) (n * (x / n)) (n * (y / n))
      ↔ u = v ∨ u ∈ subgridList n b (n * (x / n)) (n * (y / n)) := by
  rw [mem_subgridList, mem_subgridList]
  constructor
  · rintro ⟨di, dj, hdi, hdj, hval⟩
    by_cases hpos : n * (x / n) + di = x ∧ n * (y / n) + dj = y
    · rw [set_cell, if_pos hpos] at hval
      left
      exact hval.symm
    · rw [set_cell_other _ _ _ _ _ _ hpos] at hval
      right
      exact ⟨di, dj, hdi, hdj, hval⟩
  · rintro (rfl | hmem)
    · refine ⟨x % n, y % n, Nat.mod_lt _ hn, Nat.mod_lt _ hn, ?_⟩
      rw [Nat.div_add_mod, Nat.div_add_mod, set_cell_same]
    · obtain ⟨di, dj, hdi, hdj, hval⟩ := hmem
      have hpos : ¬(n * (x / n) + di = x ∧ n * (y / n) + dj = y) := by
        rintro ⟨e1, e2⟩
        rw [e1, e2, h0] at hval
        exact hu hval.symm
      exact ⟨di, dj, hdi, hdj, by rw [set_cell_other _ _ _ _ _ _ hpos]; exact hval⟩

lemma row_missing_set_cell (n : Nat) (b : Board) (x y v a : Nat)
    (hy : y < size n) (h0 : b x y = EMPTY_SPACE) :
    row_missing n (set_cell b x y v) a
      = if a = x then (row_missing n b a).erase v else row_missing n b a := by
  by_cases hax : a = x
  · subst hax
    rw [if_pos rfl]
    ext u
    rw [row_missing, row_missing, Finset.mem_erase, Finset.mem_sdiff,
      Finset.mem_sdiff, List.mem_toFinset, List.mem_toFinset]
    constructor
    · rintro ⟨hall, hnm⟩
      rw [mem_rowList_set_cell n b a y v u hy h0 (allowed_ne_zero n u hall)] at hnm
      push_neg at hnm
      exact ⟨hnm.1, hall, hnm.2⟩
    · rintro ⟨hne, hall, hnm⟩
      refine ⟨hall, ?_⟩
      rw [mem_rowList_set_cell n b a y v u hy h0 (allowed_ne_zero n u hall)]
      push_neg
      exact ⟨hne, hnm⟩
  · rw [if_neg hax, row_missing, row_missing, rowList_set_cell_ne n b x y v a hax]

lemma col_missing_set_cell (n : Nat) (b : Board) (x y v bb : Nat)
    (hx : x < size n) (h0 : b x y = EMPTY_SPACE) :
    col_missing n (set_cell b x y v) bb
      = if bb = y then (col_missing n b bb).erase v else col_missing n b bb := by
  by_cases hby : bb = y
  · subst hby
    rw [if_pos rfl]
    ext u
    rw [col_missing, col_missing, Finset.mem_erase, Finset.mem_sdiff,
      Finset.mem_sdiff, List.mem_toFinset, List.mem_toFinset]
    constructor
    · rintro ⟨hall, hnm⟩
      rw [mem_colList_set_cell n b x bb v u hx h0 (allowed_ne_zero n u hall)] at hnm
      push_neg at hnm
      exact ⟨hnm.1, hall, hnm.2⟩
    · rintro ⟨hne, hall, hnm⟩
      refine ⟨hall, ?_⟩
      rw [mem_colList_set_cell n b x bb v u hx h0 (allowed_ne_zero n u hall)]
      push_neg
      exact ⟨hne, hnm⟩
  · rw [if_neg hby, col_missing, col_missing, colList_set_cell_ne n b x y v bb hby]

lemma subgrid_missing_set_cell (n : Nat) (b : Board) (x y v a bb : Nat)
    (hx : x < size n) (hy : y < size n) (ha : a < size n) (hbb : bb < size n)
    (h0 : b x y = EMPTY_SPACE) :
    subgrid_missing_at n (set_cell b x y v) (get_subgrid_index n a bb)
      = if a / n = x / n ∧ bb / n = y / n
        then (subgrid_missing_at n b (get_subgrid_index n a bb)).erase v
        else subgrid_missing_at n b (get_subgrid_index n a bb) := by
  have hn : 0 < n := by
    rcases Nat.eq_zero_or_pos n with h | h
    · rw [h] at hx
      simp [size] at hx
    · exact h
  rw [subgrid_missing_at_index n _ a bb ha hbb, subgrid_missing_at_index n b a bb ha hbb]
  by_cases hblk : a / n = x / n ∧ bb / n = y / n
  · obtain ⟨h1, h2⟩ := hblk
    rw [if_pos ⟨h1, h2⟩, h1, h2]
    ext u
    rw [Finset.mem_erase, Finset.mem_sdiff, Finset.mem_sdiff,
      List.mem_toFinset, List.mem_toFinset]
    constructor
    · rintro ⟨hall, hnm⟩
      rw [mem_subgridList_set_cell n b x y v u hn h0 (allowed_ne_zero n u hall)] at hnm
      push_neg at hnm
      exact ⟨hnm.1, hall, hnm.2⟩
    · rintro ⟨hne, hall, hnm⟩
      refine ⟨hall, ?_⟩
      rw [mem_subgridList_set_cell n b x y v u hn h0 (allowed_ne_zero n u hall)]
      push_neg
      exact ⟨hne, hnm⟩
  · rw [if_neg hblk]
    have hno : ∀ di dj, di < n → dj < n →
        ¬(n * (a / n) + di = x ∧ n * (bb / n) + dj = y) := by
      rintro di dj hdi hdj ⟨e1, e2⟩
      apply hblk
      constructor
      · rw [← e1, Nat.mul_add_div hn, Nat.div_eq_of_lt hdi, Nat.add_zero]
      · rw [← e2, Nat.mul_add_div hn, Nat.div_eq_of_lt hdj, Nat.add_zero]
    rw [subgridList_set_cell_ne n b x y v _ _ hno]

/-- Effect of a move on the rebuilt candidate set of another cell: cells
sharing the row, column or subgrid of the move lose the applied value,
all other cells are unchanged. -/
lemma possible_values_set_cell (n : Nat) (b : Board) (x y v a bb : Nat)
    (hx : x < size n) (hy : y < size n) (ha : a < size n) (hbb : bb < size n)
    (h0 : b x y = EMPTY_SPACE) :
    possible_values n (set_cell b x y v) a bb
      = if a = x ∨ bb = y ∨ (a / n = x / n ∧ bb / n = y / n)
        then (possible_values n b a bb).erase v
        else possible_values n b a bb := by
  rw [possible_values, possible_values,
    row_missing_set_cell n b x y v a hy h0,
    col_missing_set_cell n b x y v bb hx h0,
    subgrid_missing_set_cell n b x y v a bb hx hy ha hbb h0]
  by_cases h1 : a = x
  · by_cases h2 : bb = y
    · by_cases h3 : a / n = x / n ∧ bb / n = y / n
      · rw [if_pos h1, if_pos h2, if_pos h3, if_pos (Or.inl h1)]
        ext u
        simp only [Finset.mem_erase, Finset.mem_inter]
        tauto
      · rw [if_pos h1, if_pos h2, if_neg h3, if_pos (Or.inl h1)]
        ext u
        simp only [Finset.mem_erase, Finset.mem_inter]
        tauto
    · by_cases h3 : a / n = x / n ∧ bb / n = y / n
      · rw [if_pos h1, if_neg h2, if_pos h3, if_pos (Or.inl h1)]
        ext u
        simp only [Finset.mem_erase, Finset.mem_inter]
        tauto
      · rw [if_pos h1, if_neg h2, if_neg h3, if_pos (Or.inl h1)]
        ext u
        simp only [Finset.mem_erase, Finset.mem_inter]
        tauto
  · by_cases h2 : bb = y
    · by_cases h3 : a / n = x / n ∧ bb / n = y / n
      · rw [if_neg h1, if_pos h2, if_pos h3, if_pos (Or.inr (Or.inl h2))]
        ext u
        simp only [Finset.mem_erase, Finset.mem_inter]
        tauto
      · rw [if_neg h1, if_pos h2, if_neg h3, if_pos (Or.inr (Or.inl h2))]
        ext u
        simp only [Finset.mem_erase, Finset.mem_inter]
        tauto
    · by_cases h3 : a / n = x / n ∧ bb / n = y / n
      · rw [if_neg h1, if_neg h2, if_pos h3, if_pos (Or.inr (Or.inr h3))]
        ext u
        simp only [Finset.mem_erase, Finset.mem_inter]
        tauto
      · rw [if_neg h1, if_neg h2, if_neg h3,
          if_neg (by rintro (h | h | h); exacts [h1 h, h2 h, h3 h])]

lemma triple_erase (s : Finset Nat) (v : Nat) (p1 p2 p3 : Prop)
    [Decidable p1] [Decidable p2] [Decidable p3] :
    (if p3 then (if p2 then (if p1 then s.erase v else s).erase v
        else (if p1 then s.erase v else s)).erase v
      else (if p2 then (if p1 then s.erase v else s).erase v
        else (if p1 then s.erase v else s)))
      = if p1 ∨ p2 ∨ p3 then s.erase v else s := by
  by_cases h1 : p1 <;> by_cases h2 : p2 <;> by_cases h3 : p3 <;>
    simp [h1, h2, h3, Finset.erase_idem]

/-- One apply_move on a consistently cached board keeps the incremental
cache equal to a rebuild, provided the dead-end sentinel does not fire. -/
lemma apply_move_cache_matches (n : Nat) (b : Board) (c : Cache) (x y v : Nat)
    (hm : cache_matches n b c) (hx : x < size n) (hy : y < size n)
    (h0 : b x y = EMPTY_SPACE) (hv : v ≠ 0)
    (hsent : (update_move_cache_flag n (cache_del c (x, y)) (x, y, v)).2 = false) :
    cache_matches n (set_cell b x y v)
      (update_move_cache n (cache_del c (x, y)) (x, y, v)) := by
  have hn : 0 < n := by
    rcases Nat.eq_zero_or_pos n with h | h
    · rw [h] at hx
      simp [size] at hx
    · exact h
  intro a bb ha hbb
  rw [update_move_cache_no_sentinel n _ _ hsent]
  rw [cache_lookup_map_erase, cache_lookup_map_erase, cache_lookup_map_erase,
    cache_lookup_del]
  by_cases hab : (a, bb) = (x, y)
  · rw [if_pos hab]
    have hxa : a = x := (Prod.mk.injEq a bb x y ▸ hab).1
    have hyb : bb = y := (Prod.mk.injEq a bb x y ▸ hab).2
    have hne : ¬ set_cell b x y v a bb = EMPTY_SPACE := by
      rw [hxa, hyb, set_cell_same]
      exact hv
    rw [if_neg hne]
    rfl
  · rw [if_neg hab]
    rw [hm a bb ha hbb]
    have habne : ¬(a = x ∧ bb = y) := by
      rintro ⟨e1, e2⟩
      exact hab (by rw [e1, e2])
    have hcell : set_cell b x y v a bb = b a bb := set_cell_other b x y v a bb habne
    by_cases hemp : b a bb = EMPTY_SPACE
    · rw [if_pos hemp, if_pos (by rw [hcell]; exact hemp)]
      simp only [Option.map_some']
      congr 1
      rw [triple_erase, possible_values_set_cell n b x y v a bb hx hy ha hbb h0]
      have hc1 : ((a, bb) ∈ row_group n x) ↔ a = x := by
        rw [mem_row_group]
        constructor
        · rintro ⟨h, _⟩
          exact h
        · intro h
          exact ⟨h, hbb⟩
      have hc2 : ((a, bb) ∈ col_group n y) ↔ bb = y := by
        rw [mem_col_group]
        constructor
        · rintro ⟨h, _⟩
          exact h
        · intro h
          exact ⟨h, ha⟩
      have hc3 : ((a, bb) ∈ subgrid_group n x y) ↔ (a / n = x / n ∧ bb / n = y / n) :=
        mem_subgrid_group n x y hn (a, bb)
      rw [if_congr (or_congr hc1 (or_congr hc2 hc3)) rfl rfl]
    · rw [if_neg hemp, if_neg (by rw [hcell]; exact hemp)]
      rfl

/-- The incremental cache stays equal to a rebuild along any valid
interleaving of apply and undo operations. -/
lemma run_ops_matches (n : Nat) :
    ∀ (ops : List (Bool × Move)) (cb : CBoard) (c : Cache),
      cb.cache = some c → cache_matches n cb.board c → ValidOps n cb ops →
      ∃ c', (run_ops n cb ops).cache = some c' ∧
        cache_matches n (run_ops n cb ops).board c' := by
  intro ops
  induction ops with
  | nil =>
    intro cb c hc hm _
    exact ⟨c, hc, hm⟩
  | cons op rest ih =>
    intro cb c hc hm hv
    obtain ⟨hop, hrest⟩ := hv
    have hstep : run_ops n cb (op :: rest) = run_ops n (do_op n cb op) rest := rfl
    rw [hstep]
    rcases op with ⟨isApply, m⟩
    cases isApply with
    | true =>
      obtain ⟨hxm, hym, h0m, hvm, hsent⟩ := hop rfl
      rw [hc] at hsent
      have hcen : (do_op n cb (true, m)).cache
          = some (update_move_cache n (cache_del c (m.1, m.2.1)) m) := by
        rw [do_op, if_pos rfl, apply_move_c, hc]
      have hmatch : cache_matches n (do_op n cb (true, m)).board
          (update_move_cache n (cache_del c (m.1, m.2.1)) m) := by
        rw [do_op, if_pos rfl, apply_move_c]
        simp only [hc]
        exact apply_move_cache_matches n cb.board c m.1 m.2.1 m.2.2
          hm hxm hym h0m hvm hsent
      exact ih _ _ hcen hmatch hrest
    | false =>
      have hcen : (do_op n cb (false, m)).cache
          = some (get_move_cache n (undo_move cb.board m)) := by
        rw [do_op, if_neg (by simp), undo_move_c, hc]
      have hmatch : cache_matches n (do_op n cb (false, m)).board
          (get_move_cache n (undo_move cb.board m)) := by
        rw [do_op, if_neg (by simp), undo_move_c]
        simp only [hc]
        exact cache_matches_get_move_cache n (undo_move cb.board m)
      exact ih _ _ hcen hmatch hrest

/-!
The claim theorems.
-/

/-- Claim C1 (corrected): on LEGAL boards, every move-generation strategy
returns a permutation of the Improved strategy's move list, so the four
strategies agree as sets (indeed as multisets) and differ only in order.  On
illegal boards the claim fails, see the counterexample. -/
theorem claim_C1 (n : Nat) (b : Board) (v : Version)
    (hb : is_legal_state n b = true) :
    (get_legal_moves n b v).Perm (get_legal_moves n b Version.IMPROVED) :=
  get_legal_moves_perm n b v hb

/-- Claim C1, witness: a concrete legal board on which the theorem applies. -/
theorem claim_C1_witness :
    is_legal_state 2 legalBoard4 = true ∧
    (get_legal_moves 2 legalBoard4 Version.NAIVE).Perm
      (get_legal_moves 2 legalBoard4 Version.IMPROVED) :=
  ⟨by decide, claim_C1 2 legalBoard4 Version.NAIVE (by decide)⟩

/-- Claim C1, counterexample to the claim as stated (over every board): on an
illegal board the Naive strategy returns no moves while the Improved strategy
returns a nonempty list, so the move sets differ. -/
theorem claim_C1_counterexample :
    get_legal_moves 2 illegalBoard4 Version.NAIVE = [] ∧
    get_legal_moves 2 illegalBoard4 Version.IMPROVED ≠ [] := by
  exact ⟨by decide, by decide⟩

/-- Claim C2 (corrected): along any interleaving of apply/undo operations in
which every applied move writes a nonzero value into an in-range empty cell
and never fires the dead-end sentinel of update_move_cache, the incrementally
maintained cache assigns to every in-range empty cell exactly the candidate
set that a from-scratch rebuild computes.  When the sentinel fires it
overwrites the cache entry of cell (0, 0), and the claim fails, see the
counterexample. -/
theorem claim_C2 (n : Nat) (cb : CBoard) (c : Cache) (ops : List (Bool × Move))
    (hc : cb.cache = some c) (hm : cache_matches n cb.board c)
    (hops : ValidOps n cb ops) :
    ∀ x y, x < size n → y < size n →
      (run_ops n cb ops).board x y = EMPTY_SPACE →
      cache_lookup ((run_ops n cb ops).cache.getD []) (x, y)
        = cache_lookup (get_move_cache n (run_ops n cb ops).board) (x, y) := by
  obtain ⟨c', hc', hm'⟩ := run_ops_matches n ops cb c hc hm hops
  intro x y hx hy h0
  rw [hc', Option.getD_some, hm' x y hx hy, if_pos h0,
    cache_matches_get_move_cache n (run_ops n cb ops).board x y hx hy, if_pos h0]

/-- Claim C2, witness: after applying and undoing a move on a concrete cached
board, the incremental cache entry of the empty cell (0, 0) equals the entry
a rebuild computes. -/
theorem claim_C2_witness :
    (run_ops 2 legalCBoard4 roundtripOps).board 0 0 = EMPTY_SPACE ∧
    cache_lookup ((run_ops 2 legalCBoard4 roundtripOps).cache.getD []) (0, 0)
      = cache_lookup
          (get_move_cache 2 (run_ops 2 legalCBoard4 roundtripOps).board) (0, 0) :=
  ⟨by decide,
    claim_C2 2 legalCBoard4 (get_move_cache 2 legalBoard4) roundtripOps rfl
      (cache_matches_get_move_cache 2 legalBoard4)
      (by
        simp only [ValidOps]
        exact ⟨fun _ => ⟨by decide, by decide, by decide, by decide, by decide⟩,
          fun h => absurd h (by decide), trivial⟩)
      0 0 (by decide) (by decide) (by decide)⟩

/-- Claim C2, counterexample to the claim as stated (over every interleaving):
applying (3, 1, 3) on sentinelBoard4 fires the dead-end sentinel, which
overwrites the cache entry of the still-empty cell (0, 0) with the empty set,
while a rebuild computes the candidate set {3, 4} for it. -/
theorem claim_C2_counterexample :
    (apply_move_c 2 sentinelCBoard4 (3, 1, 3)).board 0 0 = EMPTY_SPACE ∧
    cache_lookup ((apply_move_c 2 sentinelCBoard4 (3, 1, 3)).cache.getD []) (0, 0)
      = some ∅ ∧
    cache_lookup
        (get_move_cache 2 (apply_move_c 2 sentinelCBoard4 (3, 1, 3)).board) (0, 0)
      = some ({3, 4} : Finset Nat) := by
  exact ⟨by decide, by decide, by decide⟩

/-- Claim C3 (confirmed): starting from a legal board, every state popped by
the iterative driver and every state on which the recursive driver is entered
satisfies is_legal_state. -/
theorem claim_C3 (n : Nat) (version : Version) (fuel : Nat) (b : Board)
    (hb : is_legal_state n b = true) :
    (∀ e ∈ (solve n version fuel b).2.1, is_legal_state n e.1 = true) ∧
    (∀ (visited : List Nat) (r : RecOut),
      solve_recursive n version fuel b visited = Except.ok r →
      ∀ s ∈ r.trace, is_legal_state n s = true) := by
  constructor
  · intro e he
    refine solve_run_trace_legal n version fuel ⟨[b], [], 0, 0, 0⟩ ?_ e he
    intro b' hb'
    rw [List.mem_singleton] at hb'
    rw [hb']
    exact hb
  · intro visited r hr
    exact (solve_recursive_invariant n version fuel b visited r hb hr).1

/-- Claim C3, witness: the theorem applied to a concrete legal board. -/
theorem claim_C3_witness :
    is_legal_state 2 legalBoard4 = true ∧
    ((∀ e ∈ (solve 2 Version.IMPROVED 3 legalBoard4).2.1,
        is_legal_state 2 e.1 = true) ∧
      (∀ (visited : List Nat) (r : RecOut),
        solve_recursive 2 Version.IMPROVED 3 legalBoard4 visited = Except.ok r →
        ∀ s ∈ r.trace, is_legal_state 2 s = true)) :=
  ⟨by decide, claim_C3 2 Version.IMPROVED 3 legalBoard4 (by decide)⟩

/-- Claim C4 (corrected): when the recursive driver bottoms out it returns an
absent result (None) without an exception — every ok-outcome is either None or
a completed board.  The iterative driver, however, raises the uncaught
queue.Empty exception as soon as its stack empties, instead of returning an
empty result; see the counterexample for a concrete unsolvable board. -/
theorem claim_C4 (n : Nat) (version : Version) (fuel : Nat) (st : SolveState)
    (h : st.stack = []) :
    (solve_run n version (fuel + 1) st).1 = SolveResult.queueEmptyError ∧
    ∀ (state : Board) (visited : List Nat) (r : RecOut),
      solve_recursive n version fuel state visited = Except.ok r →
      r.result = none ∨ ∃ bs, r.result = some bs ∧ is_complete n bs = Except.ok true := by
  constructor
  · rcases st with ⟨stack, visited, ne, rs, br⟩
    cases stack with
    | nil => rfl
    | cons a l => exact (List.cons_ne_nil a l h).elim
  · intro state visited r hr
    exact solve_recursive_result n version fuel state visited r hr

/-- Claim C4, witness: the theorem applied to an exhausted frontier. -/
theorem claim_C4_witness :
    emptyState.stack = [] ∧
    ((solve_run 2 Version.IMPROVED 3 emptyState).1 = SolveResult.queueEmptyError ∧
      ∀ (state : Board) (visited : List Nat) (r : RecOut),
        solve_recursive 2 Version.IMPROVED 2 state visited = Except.ok r →
        r.result = none ∨ ∃ bs, r.result = some bs ∧
          is_complete 2 bs = Except.ok true) :=
  ⟨rfl, claim_C4 2 Version.IMPROVED 2 emptyState rfl⟩

set_option maxRecDepth 4000 in
/-- Claim C4, counterexample to the claim as stated: on a concrete legal but
unsolvable board the iterative driver ends with the queue.Empty exception, not
with an empty/absent result. -/
theorem claim_C4_counterexample :
    (solve 2 Version.IMPROVED 20 unsolvableBoard4).1
      = SolveResult.queueEmptyError := by
  rfl

/-- Claim C5 (confirmed): applying a move to an empty cell and undoing it
restores the board exactly (all cell contents), hence also its fingerprint. -/
theorem claim_C5 (n : Nat) (b : Board) (m : Move)
    (h0 : b m.1 m.2.1 = EMPTY_SPACE) :
    undo_move (apply_move b m) m = b ∧
    fingerprint n (undo_move (apply_move b m) m) = fingerprint n b := by
  have he := undo_apply_eq b m h0
  exact ⟨he, by rw [he]⟩

/-- Claim C5, witness: the theorem applied to a concrete board and move. -/
theorem claim_C5_witness :
    legalBoard4 0 0 = EMPTY_SPACE ∧
    (undo_move (apply_move legalBoard4 (0, 0, 2)) (0, 0, 2) = legalBoard4 ∧
      fingerprint 2 (undo_move (apply_move legalBoard4 (0, 0, 2)) (0, 0, 2))
        = fingerprint 2 legalBoard4) :=
  ⟨rfl, claim_C5 2 legalBoard4 (0, 0, 2) rfl⟩

/-- Claim C6 (corrected): the iterative driver never increments the
revisited-state counter — the spelled field revistited_states keeps its
initial value across the entire run, even when pops are skipped as already
expanded (see the counterexample for a run with a skipped pop); the
node-expansion count does increase by one per non-skipped pop, and every
non-skipped pop has its fingerprint marked expanded. -/
theorem claim_C6 (n : Nat) (version : Version) (fuel : Nat) (st : SolveState) :
    (solve_run n version fuel st).2.2.revistited_states = st.revistited_states ∧
    (solve_run n version fuel st).2.2.node_expansions
      = st.node_expansions
        + ((solve_run n version fuel st).2.1.filter (fun e => !e.2)).length ∧
    ∀ e ∈ (solve_run n version fuel st).2.1, e.2 = false →
      fingerprint n e.1 ∈ (solve_run n version fuel st).2.2.visited :=
  solve_run_stats n version fuel st

set_option maxRecDepth 8000 in
set_option maxHeartbeats 4000000 in
/-- Claim C6, counterexample to the claim as stated: a concrete run in which
exactly one pop is skipped as already expanded, yet the revisited-state
counter of the final driver state is still 0. -/
theorem claim_C6_counterexample :
    ((solve 3 Version.IMPROVED 30 revisitBoard9).2.1.filter
        (fun e => e.2)).length = 1 ∧
    (solve 3 Version.IMPROVED 30 revisitBoard9).2.2.revistited_states = 0 :=
  ⟨by decide, (solve_run_stats 3 Version.IMPROVED 30 ⟨[revisitBoard9], [], 0, 0, 0⟩).1⟩

/-- Claim C7 (code bug): get_row raises InvalidIndex exactly when the index is
outside [0, size), as the spec says — but on an in-range index it returns the
COLUMN of that index (the source comprehension indexes the grid as
`self._board[x][row]`), not the row. -/
theorem claim_C7 (n : Nat) (b : Board) (i : Int) :
    (¬(0 ≤ i ∧ i < (size n : Int)) →
      get_row n b i = Except.error BoardError.invalidIndex) ∧
    ((0 ≤ i ∧ i < (size n : Int)) →
      get_row n b i = Except.ok (colList n b i.toNat)) := by
  constructor
  · intro h
    rw [get_row, if_pos (by omega)]
  · intro h
    rw [get_row, if_neg (by omega)]
    rfl

/-- Claim C7, witness: the theorem applied at an in-range and an out-of-range
index of a concrete board. -/
theorem claim_C7_witness :
    get_row 2 rowBoard4 0 = Except.ok (colList 2 rowBoard4 0) ∧
    get_row 2 rowBoard4 (-1) = Except.error BoardError.invalidIndex :=
  ⟨(claim_C7 2 rowBoard4 0).2 ⟨by decide, by decide⟩,
    (claim_C7 2 rowBoard4 (-1)).1 (by decide)⟩

/-- Claim C7, divergence evidence for the bug: on a concrete board whose row 0
and column 0 differ, get_row 0 returns the column [1, 0, 0, 0] while the
actual row 0 of the board is [1, 2, 3, 4]. -/
theorem claim_C7_counterexample :
    get_row 2 rowBoard4 0 = Except.ok [1, 0, 0, 0] ∧
    rowList 2 rowBoard4 0 = [1, 2, 3, 4] := by
  exact ⟨rfl, rfl⟩

/-- Claim C8 (confirmed): is_complete returns ok false exactly when some
in-range cell is empty; on a fully filled board it returns ok true when the
board is legal and the InconsistentCompleteState error when it is not, so it
never returns true on an illegal board. -/
theorem claim_C8 (n : Nat) (b : Board) :
    (is_complete n b = Except.ok false ↔
      ∃ x y, x < size n ∧ y < size n ∧ b x y = EMPTY_SPACE) ∧
    (is_complete n b = Except.ok true ↔
      (∀ x y, x < size n → y < size n → b x y ≠ EMPTY_SPACE)
        ∧ is_legal_state n b = true) ∧
    (is_complete n b = Except.error BoardError.inconsistentCompleteState ↔
      (∀ x y, x < size n → y < size n → b x y ≠ EMPTY_SPACE)
        ∧ is_legal_state n b ≠ true) := by
  have hfull : (((List.range (size n)).all (fun x => (List.range (size n)).all
      (fun y => b x y != EMPTY_SPACE))) = true)
      ↔ ∀ x y, x < size n → y < size n → b x y ≠ EMPTY_SPACE := by
    simp only [List.all_eq_true, List.mem_range, bne_iff_ne, ne_eq]
    constructor
    · intro h x y hx hy
      exact h x hx y hy
    · intro h x hx y hy
      exact h x y hx hy
  rw [is_complete]
  by_cases hf : ((List.range (size n)).all (fun x => (List.range (size n)).all
      (fun y => b x y != EMPTY_SPACE))) = true
  · rw [if_pos hf]
    have hP := hfull.1 hf
    by_cases hleg : is_legal_state n b = true
    · rw [if_pos hleg]
      refine ⟨?_, ?_, ?_⟩
      · constructor
        · intro h
          exact absurd h (by simp)
        · rintro ⟨x, y, hx, hy, h0⟩
          exact absurd h0 (hP x y hx hy)
      · exact ⟨fun _ => ⟨hP, hleg⟩, fun _ => rfl⟩
      · constructor
        · intro h
          exact absurd h (by simp)
        · rintro ⟨_, hnl⟩
          exact absurd hleg hnl
    · rw [if_neg hleg]
      refine ⟨?_, ?_, ?_⟩
      · constructor
        · intro h
          exact absurd h (by simp)
        · rintro ⟨x, y, hx, hy, h0⟩
          exact absurd h0 (hP x y hx hy)
      · constructor
        · intro h
          exact absurd h (by simp)
        · rintro ⟨_, hl⟩
          exact absurd hl hleg
      · exact ⟨fun _ => ⟨hP, hleg⟩, fun _ => rfl⟩
  · rw [if_neg hf]
    have hnP : ¬ ∀ x y, x < size n → y < size n → b x y ≠ EMPTY_SPACE :=
      fun hh => hf (hfull.2 hh)
    push_neg at hnP
    obtain ⟨x, y, hx, hy, h0⟩ := hnP
    refine ⟨?_, ?_, ?_⟩
    · exact ⟨fun _ => ⟨x, y, hx, hy, h0⟩, fun _ => rfl⟩
    · constructor
      · intro h
        exact absurd h (by simp)
      · rintro ⟨hPP, _⟩
        exact absurd h0 (hPP x y hx hy)
    · constructor
      · intro h
        exact absurd h (by simp)
      · rintro ⟨hPP, _⟩
        exact absurd h0 (hPP x y hx hy)

/-- Claim C9 (confirmed): the Sorted and Cached move lists are concatenations
of per-cell groups (one move per candidate of one empty cell) with the groups
in weakly decreasing candidate-set size, so a LIFO consumer, popping from the
end, sees the most constrained cells first. -/
theorem claim_C9 (n : Nat) (b : Board) :
    GroupedByCellDesc n b (get_legal_moves n b Version.SORTED) ∧
    GroupedByCellDesc n b (get_legal_moves n b Version.STORE_LEGAL) :=
  ⟨sorted_grouped n b, cached_grouped n b⟩

/-- Claim C10 (confirmed): on a board without a move cache, apply_move (x, y, v)
writes v into cell (x, y), leaves every other cell unchanged, and creates no
cache; no emptiness check is made on the target cell, so the theorem applies
equally when the cell already holds a value (see the witness, which overwrites
a nonzero cell). -/
theorem claim_C10 (n : Nat) (cb : CBoard) (m : Move) (hc : cb.cache = none) :
    (apply_move_c n cb m).board m.1 m.2.1 = m.2.2 ∧
    (∀ i j, ¬(i = m.1 ∧ j = m.2.1) →
      (apply_move_c n cb m).board i j = cb.board i j) ∧
    (apply_move_c n cb m).cache = none := by
  rcases cb with ⟨bb, cc⟩
  change cc = none at hc
  subst hc
  exact ⟨set_cell_same bb m.1 m.2.1 m.2.2,
    fun i j hij => set_cell_other bb m.1 m.2.1 m.2.2 i j hij, rfl⟩

/-- Claim C10, witness: the theorem applied to a cacheless concrete board at a
cell that already holds 1 — the move silently overwrites it with 4. -/
theorem claim_C10_witness :
    (⟨rowBoard4, none⟩ : CBoard).cache = none ∧
    ((apply_move_c 2 ⟨rowBoard4, none⟩ (0, 0, 4)).board 0 0 = 4 ∧
      (∀ i j, ¬(i = 0 ∧ j = 0) →
        (apply_move_c 2 ⟨rowBoard4, none⟩ (0, 0, 4)).board i j
          = (⟨rowBoard4, none⟩ : CBoard).board i j) ∧
      (apply_move_c 2 ⟨rowBoard4, none⟩ (0, 0, 4)).cache = none) :=
  ⟨rfl, claim_C10 2 ⟨rowBoard4, none⟩ (0, 0, 4) rfl⟩

end SudokuSpec
